import Mathlib

/-!
Verification development for the parking-facility backend
(`src/backend/main.py`, class `ParkingSystem`).

The Python object state is embedded as the structure `Parking.Sys`:
`networkx.Graph` nodes become a list of `NodeInfo`, edge attributes become an
association list keyed by the unordered pair of endpoint ids (mirroring
`nx.Graph.add_edge`'s replace-on-re-add semantics), Python dicts become
association lists, and the two `heapq` priority queues become lists kept sorted
by the lexicographic order on `(distance, id)` pairs, which realises exactly
the observable `heappop`/`heappush` behaviour of a binary heap of 2-tuples.

`nx.single_source_dijkstra_path_length` and `nx.shortest_path` are not part of
the repository; they are modelled as exact shortest-path computations: a
Bellman-Ford relaxation run to a fixpoint, plus (for `shortest_path`) a
reconstructed path that the definition itself re-validates (start node, edge
chain, and cost agreeing with the computed distance).  On every input where
the relaxation converges — which includes every concrete input used below —
this returns a true shortest path / distance table, which is precisely the
contract of the networkx functions.

Python exceptions (`HTTPException`, `networkx.NetworkXNoPath`) abort the
operation but keep all mutations already applied to the `ParkingSystem`
object; accordingly `park` and `leave` return the (possibly mutated) state
together with an `Except` value.
-/

deriving instance DecidableEq for Except

namespace Parking

/-- Kind of a materialized grid cell: `road` for `'R'`/`'E'`/unrecognized
characters, `slot` for `'T'`/`'S'` (see `_build_graph`, step 1). -/
inductive NType
  | road
  | slot
deriving DecidableEq, Repr

/-- One materialized node of the graph: id `r * cols + c`, its kind,
and its grid coordinates (the `r`/`c` node attributes). -/
structure NodeInfo where
  id : Nat
  ntype : NType
  r : Nat
  c : Nat
deriving DecidableEq, Repr

/-- First-match lookup in an association list (Python `dict.get`). -/
def lookupA {α β : Type} [DecidableEq α] : List (α × β) → α → Option β
  | [], _ => none
  | (k, v) :: t, x => if k = x then some v else lookupA t x

/-- Update/insert for an association list (Python `dict.__setitem__`):
replaces the first binding of the key, or appends a new binding. -/
def setA {α β : Type} [DecidableEq α] : List (α × β) → α → β → List (α × β)
  | [], k, v => [(k, v)]
  | (k', v') :: t, k, v => if k' = k then (k, v) :: t else (k', v') :: setA t k v

/-- Remove the first binding of a key (Python `dict.pop`). -/
def eraseA {α β : Type} [DecidableEq α] : List (α × β) → α → List (α × β)
  | [], _ => []
  | (k', v') :: t, k => if k' = k then t else (k', v') :: eraseA t k

/-- Lexicographic order on `(distance, id)` pairs — the order Python uses to
compare the 2-tuples stored in the `heapq` queues. -/
def pairLe (x y : Nat × Nat) : Prop := x.1 < y.1 ∨ (x.1 = y.1 ∧ x.2 ≤ y.2)

instance (x y : Nat × Nat) : Decidable (pairLe x y) := by
  unfold pairLe
  infer_instance

/-- Ordered insertion into a sorted list: the model of `heapq.heappush`. -/
def pqInsert (x : Nat × Nat) : List (Nat × Nat) → List (Nat × Nat)
  | [] => [x]
  | y :: t => if pairLe x y then x :: y :: t else y :: pqInsert x t

/-- Canonical (unordered) key of an edge between node ids `u` and `v`. -/
def ekey (u v : Nat) : Nat × Nat := if u ≤ v then (u, v) else (v, u)

/-- Edge weights are natural numbers (1, 50, 100 statically; 10000 under the
dynamic penalty). -/
abbrev Weight := Nat

/-- Set the weight of the undirected edge `{u, v}` (the model of
`nx.Graph.add_edge`, which overwrites the attributes of an existing edge). -/
def setEdge : List ((Nat × Nat) × Weight) → Nat → Nat → Weight → List ((Nat × Nat) × Weight)
  | [], u, v, w => [(ekey u v, w)]
  | (k, w') :: t, u, v, w =>
    if k = ekey u v then (ekey u v, w) :: t else (k, w') :: setEdge t u v w

/-- Look up the weight of the undirected edge `{u, v}`. -/
def lookupEdge (es : List ((Nat × Nat) × Weight)) (u v : Nat) : Option Weight :=
  lookupA es (ekey u v)

/-- Full state of one `ParkingSystem` instance after `_build_graph`. -/
structure Sys where
  rows : Nat
  cols : Nat
  nodes : List NodeInfo
  edges : List ((Nat × Nat) × Weight)
  entry : Nat
  slots2w : List (Nat × Nat)
  slots4w : List (Nat × Nat)
  slotStatus : List (Nat × Nat)
  slotCat : List (Nat × String)
  vehicleMap : List (String × Nat × String)
deriving DecidableEq, Repr

/-- Character of the layout at `(r, c)` (out-of-range reads default to `'.'`;
`build` only evaluates in-range positions). -/
def charAt (layout : List (List Char)) (r c : Nat) : Char :=
  (layout.getD r []).getD c '.'

/-- Node kind assigned to a layout character: `'T'`/`'S'` become slots, every
other materialized character (including `'E'` and unrecognized symbols, which
take the `else` branch of `_build_graph`) becomes a road node. -/
def typeOf (ch : Char) : NType := if ch = 'T' ∨ ch = 'S' then NType.slot else NType.road

/-- Slot category assigned to a layout character (`slot_category` dict):
`'T' ↦ "2w"`, `'S' ↦ "4w"`, nothing otherwise. -/
def catFor (ch : Char) : Option String :=
  if ch = 'T' then some "2w" else if ch = 'S' then some "4w" else none

/-- All `(r, c)` positions scanned by the node-creation loop, in row-major
order (`for r in range(rows): for c in range(cols)`). -/
def cellList (rows cols : Nat) : List (Nat × Nat) :=
  (List.range rows).flatMap (fun r => (List.range cols).map (fun c => (r, c)))

/-- Nodes created by step 1 of `_build_graph`: one node per non-`'.'` cell,
with id `r * cols + c`. -/
def nodesOf (layout : List (List Char)) (cols : Nat) : List NodeInfo :=
  (cellList layout.length cols).filterMap (fun rc =>
    if charAt layout rc.1 rc.2 = '.' then none
    else some ⟨rc.1 * cols + rc.2, typeOf (charAt layout rc.1 rc.2), rc.1, rc.2⟩)

/-- The `slot_status` dict right after `_build_graph`: every slot cell is
mapped to `0` (free). -/
def statusOf (layout : List (List Char)) (cols : Nat) : List (Nat × Nat) :=
  (cellList layout.length cols).filterMap (fun rc =>
    if charAt layout rc.1 rc.2 = 'T' ∨ charAt layout rc.1 rc.2 = 'S'
    then some (rc.1 * cols + rc.2, 0) else none)

/-- The `slot_category` dict: `'T'` cells map to `"2w"`, `'S'` cells to
`"4w"`. -/
def catsOf (layout : List (List Char)) (cols : Nat) : List (Nat × String) :=
  (cellList layout.length cols).filterMap (fun rc =>
    (catFor (charAt layout rc.1 rc.2)).map (fun s => (rc.1 * cols + rc.2, s)))

/-- Id of the last `'E'` cell in row-major scan order, if any: each `'E'`
overwrites `self.entry_node_id`, so the last assignment wins. -/
def lastEntrance (layout : List (List Char)) (cols : Nat) : Option Nat :=
  ((cellList layout.length cols).filterMap (fun rc =>
    if charAt layout rc.1 rc.2 = 'E' then some (rc.1 * cols + rc.2) else none)).getLast?

/-- Ids of all `'E'` cells in row-major scan order (the successive values taken
by `self.entry_node_id` during the node loop). -/
def eIds (layout : List (List Char)) (cols : Nat) : List Nat :=
  (cellList layout.length cols).filterMap (fun rc =>
    if charAt layout rc.1 rc.2 = 'E' then some (rc.1 * cols + rc.2) else none)

/-- The `node_to_idx` dict as a function of the layout: a cell `(r, c)` is a
key exactly when it is in the scanned range and not `'.'`, and then its node
is determined by the cell's character.  `findCoord_nodesOf` below proves this
agrees with searching the created node list. -/
def cellNode (layout : List (List Char)) (cols r c : Nat) : Option NodeInfo :=
  if r < layout.length ∧ c < cols then
    if charAt layout r c = '.' then none
    else some ⟨r * cols + c, typeOf (charAt layout r c), r, c⟩
  else none

/-- The four 4-neighbour coordinates of `(r, c)` in the direction order of the
source (`up, down, left, right`); a negative coordinate is never a
`node_to_idx` key, so the up/left candidates exist only when `r > 0` /
`c > 0`. -/
def nbrs (r c : Nat) : List (Nat × Nat) :=
  (if r = 0 then [] else [(r - 1, c)]) ++ [(r + 1, c)] ++
    (if c = 0 then [] else [(r, c - 1)]) ++ [(r, c + 1)]

/-- Static edge weight of `_build_graph` step 2: start from 1, force 50 when
either endpoint is a slot, force 100 when both are. -/
def weightRule (t1 t2 : NType) : Weight :=
  if t1 = NType.slot ∧ t2 = NType.slot then 100
  else if t1 = NType.slot ∨ t2 = NType.slot then 50
  else 1

/-- Process one node `u` of the edge loop: add an edge to each materialized
4-neighbour. -/
def edgeStep (layout : List (List Char)) (cols : Nat) (es : List ((Nat × Nat) × Weight))
    (u : NodeInfo) : List ((Nat × Nat) × Weight) :=
  (nbrs u.r u.c).foldl (fun es rc =>
    match cellNode layout cols rc.1 rc.2 with
    | some v => setEdge es u.id v.id (weightRule u.ntype v.ntype)
    | none => es) es

/-- All edges of the built graph. -/
def edgesOf (layout : List (List Char)) (cols : Nat) (nodes : List NodeInfo) :
    List ((Nat × Nat) × Weight) :=
  nodes.foldl (edgeStep layout cols) []

/-- Entrance resolution: the last `'E'` cell if one exists, else the node at
`(1, 0)` if materialized, else the first created node, else id 0. -/
def entryOf (layout : List (List Char)) (cols : Nat) (nodes : List NodeInfo) : Nat :=
  match lastEntrance layout cols with
  | some e => e
  | none =>
    match cellNode layout cols 1 0 with
    | some n => n.id
    | none =>
      match nodes.head? with
      | some n => n.id
      | none => 0

/-- Sentinel distance standing for "unreachable": strictly larger than the
weight of any actual path arising below, and small enough to fit one limb of
the packed distance table. -/
def SENT : Nat := 1000000000

/-- The distance table of a shortest-path computation is packed into a single
natural number, 32 bits per node id (all stored distances are at most `SENT`
which is below `2 ^ 30`), so that table reads and writes are single
GMP-arithmetic steps during kernel evaluation.  `getL d i` reads the entry of
node id `i`. -/
def getL (d i : Nat) : Nat := (d >>> (32 * i)) % 4294967296

/-- Decrease entry `i` of a packed distance table to `v` (only ever called
with `v` smaller than the current entry). -/
def setL (d i v : Nat) : Nat := d - ((getL d i - v) <<< (32 * i))

/-- A packed table of `n` entries, all `SENT`. -/
def sentFill : Nat → Nat
  | 0 => 0
  | Nat.succ k => SENT + (sentFill k <<< 32)

/-- A weight function for path computations: arguments are the two endpoint
ids and the stored static weight (networkx calls `weight(u, v, data)`). -/
abbrev WFun := Nat → Nat → Weight → Weight

/-- Both orientations of every stored undirected edge. -/
def dirEdges (es : List ((Nat × Nat) × Weight)) : List (Nat × Nat × Weight) :=
  es.flatMap (fun kw => [(kw.1.1, kw.1.2, kw.2), (kw.1.2, kw.1.1, kw.2)])

/-- Relax one directed edge. -/
def relaxStep (W : WFun) (d : Nat) (e : Nat × Nat × Weight) : Nat :=
  let c := getL d e.1 + W e.1 e.2.1 e.2.2
  if c < getL d e.2.1 then setL d e.2.1 c else d

/-- One relaxation sweep over a list of directed edges.  The outwardly
redundant zero test keeps the intermediate table in head position of an
`ite`, so evaluation reduces it to a numeral at every step instead of
accumulating a deep lazy chain. -/
def relaxAll (W : WFun) : List (Nat × Nat × Weight) → Nat → Nat
  | [], d => d
  | e :: t, d =>
    let d2 := relaxStep W d e
    if d2 = 0 then relaxAll W t d2 else relaxAll W t d2

/-- Iterated forward/backward relaxation sweeps with early exit on a
fixpoint. -/
def bfLoop (W : WFun) (desF desR : List (Nat × Nat × Weight)) :
    Nat → Nat → Nat
  | 0, d => d
  | Nat.succ fuel, d =>
    let d2 := relaxAll W desR (relaxAll W desF d)
    if d2 = d then d else bfLoop W desF desR fuel d2

/-- Single-source distance table over ids `0 … n-1` (the model of
`nx.single_source_dijkstra_path_length`; unreachable ids keep `SENT`). -/
def bfDistances (W : WFun) (es : List ((Nat × Nat) × Weight)) (n src : Nat) : Nat :=
  let des := dirEdges es
  bfLoop W des des.reverse n (setL (sentFill n) src 0)

/-- The static weight function: just the stored edge weight. -/
def staticW : WFun := fun _ _ w => w

/-- Queue priority of a slot at build time: `lengths.get(node_id, 9999)` —
the Dijkstra distance for reachable slots, the literal `9999` otherwise. -/
def qdist (bf : Nat) (i : Nat) : Nat :=
  let d := getL bf i
  if d = SENT then 9999 else d

/-- Handle one node of the queue-population loop: a slot node is pushed into
the queue of its category with its `qdist` priority. -/
def queueStep (cats : List (Nat × String)) (bf : Nat)
    (qs : List (Nat × Nat) × List (Nat × Nat)) (n : NodeInfo) :
    List (Nat × Nat) × List (Nat × Nat) :=
  if n.ntype = NType.slot then
    if lookupA cats n.id = some "2w" then (pqInsert (qdist bf n.id, n.id) qs.1, qs.2)
    else (qs.1, pqInsert (qdist bf n.id, n.id) qs.2)
  else qs

/-- Populate the two priority queues from the node list in creation order
(the final loop of `_build_graph`). -/
def buildQueues (nodes : List NodeInfo) (cats : List (Nat × String)) (bf : Nat) :
    List (Nat × Nat) × List (Nat × Nat) :=
  nodes.foldl (queueStep cats bf) ([], [])

/-- The queue entry a node contributes to the two-wheeler queue, if any. -/
def qsel1 (cats : List (Nat × String)) (bf : Nat) (n : NodeInfo) : Option (Nat × Nat) :=
  if n.ntype = NType.slot ∧ lookupA cats n.id = some "2w"
  then some (qdist bf n.id, n.id) else none

/-- The queue entry a node contributes to the four-wheeler queue, if any. -/
def qsel2 (cats : List (Nat × String)) (bf : Nat) (n : NodeInfo) : Option (Nat × Nat) :=
  if n.ntype = NType.slot ∧ ¬lookupA cats n.id = some "2w"
  then some (qdist bf n.id, n.id) else none

/-- The state `_build_graph` produces on a layout it accepts: nodes, edges,
entrance, the static distance table, and the two queues populated from it. -/
def builtSys (layout : List (List Char)) : Sys :=
  let rows := layout.length
  let cols := (layout.headD []).length
  let nodes := nodesOf layout cols
  let edges := edgesOf layout cols nodes
  let entry := entryOf layout cols nodes
  let bf := bfDistances staticW edges (rows * cols) entry
  let cats := catsOf layout cols
  let qs := buildQueues nodes cats bf
  { rows := rows, cols := cols, nodes := nodes, edges := edges, entry := entry,
    slots2w := qs.1, slots4w := qs.2, slotStatus := statusOf layout cols,
    slotCat := cats, vehicleMap := [] }

/-- The model of `_build_graph`.  A row shorter than the first row makes the
Python loop read past its end (`IndexError`, an untyped exception), returned
here as `.error`; rows longer than the first are silently truncated, since
only columns `0 … cols-1` are ever scanned. -/
def build (layout : List (List Char)) : Except String Sys :=
  if layout.any (fun row => row.length < (layout.headD []).length) then
    Except.error "IndexError"
  else Except.ok (builtSys layout)

/-- Cost of the path continuation `t` starting from node `a` (missing edges
cost `SENT`; validated paths never contain one). -/
def pathCostFrom (W : WFun) (es : List ((Nat × Nat) × Weight)) : Nat → List Nat → Nat
  | _, [] => 0
  | a, b :: t =>
    (match lookupEdge es a b with | some w => W a b w | none => SENT) + pathCostFrom W es b t

/-- Total weighted cost of a node path. -/
def pathCostB (W : WFun) (es : List ((Nat × Nat) × Weight)) : List Nat → Nat
  | [] => 0
  | a :: t => pathCostFrom W es a t

/-- Every consecutive pair of the continuation is an edge of the graph. -/
def chainOk (es : List ((Nat × Nat) × Weight)) : Nat → List Nat → Bool
  | _, [] => true
  | a, b :: t => (lookupEdge es a b).isSome && chainOk es b t

/-- `p` is a path from `src` to `dst` along edges of the graph. -/
def validPathB (es : List ((Nat × Nat) × Weight)) (p : List Nat) (src dst : Nat) : Bool :=
  match p with
  | [] => false
  | a :: t => (a == src) && chainOk es a t && (t.getLastD a == dst)

/-- Decidable certificate that `d` is a shortest-distance table: the source
has distance 0 and no directed edge can relax. -/
def isFixB (W : WFun) (des : List (Nat × Nat × Weight)) (d : Nat) (src : Nat) : Bool :=
  (getL d src == 0) &&
    des.all (fun e => Nat.ble (getL d e.2.1) (getL d e.1 + W e.1 e.2.1 e.2.2))

/-- A predecessor of `v` on a shortest path: the first directed edge into `v`
whose tail's distance plus weight equals `v`'s distance. -/
def predStep (W : WFun) (des : List (Nat × Nat × Weight)) (d : Nat) (v : Nat) : Option Nat :=
  (des.find? (fun e => (e.2.1 == v) && (getL d e.1 + W e.1 e.2.1 e.2.2 == getL d v))).map
    (fun e => e.1)

/-- Walk predecessors back from `v` to `src`, producing the node path. -/
def reconstruct (W : WFun) (des : List (Nat × Nat × Weight)) (d : Nat) (src : Nat) :
    Nat → Nat → Option (List Nat)
  | 0, _ => none
  | Nat.succ fuel, v =>
    if v = src then some [src]
    else
      match predStep W des d v with
      | some u => (reconstruct W des d src fuel u).map (fun p => p ++ [v])
      | none => none

/-- The model of `nx.shortest_path(graph, src, dst, weight=W)`: computes
distances, and returns a path only after re-validating that it is a genuine
path of cost equal to the computed (fixpoint-certified) distance — hence any
returned path is a true minimum-cost path.  Returns `none` when `dst` is
unreachable, where networkx raises `NetworkXNoPath`. -/
def shortestPathChecked (W : WFun) (es : List ((Nat × Nat) × Weight)) (n src dst : Nat) :
    Option (List Nat) :=
  let des := dirEdges es
  let d := bfLoop W des des.reverse n (setL (sentFill n) src 0)
  if isFixB W des d src && decide (getL d dst < SENT) then
    match reconstruct W des d src n dst with
    | some p =>
      if validPathB es p src dst && (pathCostB W es p == getL d dst) then some p else none
    | none => none
  else none

/-- The `dynamic_weight` closure of `park_vehicle`: any edge touching an
occupied slot other than the destination costs 10000, otherwise the static
weight. -/
def dynW (status : List (Nat × Nat)) (target : Nat) : WFun := fun u v w =>
  if u ≠ target ∧ lookupA status u = some 1 then 10000
  else if v ≠ target ∧ lookupA status v = some 1 then 10000
  else w

/-- Typed failures of the public operations.  `noPathFound` stands for the
(untyped) `networkx.NetworkXNoPath` exception; the others are the
`HTTPException`s raised by `park_vehicle` / `remove_vehicle`. -/
inductive PErr
  | alreadyParked
  | lotFull (queueName : String)
  | notParked
  | noPathFound
deriving DecidableEq, Repr

/-- Successful result of `park_vehicle`: allocated slot id, the vehicle type
string echoed back, and the entrance-to-slot node path. -/
structure ParkRes where
  slotId : Nat
  vtype : String
  path : List Nat
deriving DecidableEq, Repr

/-- The mutating half of `park_vehicle`: the popped queue replaced by its
tail, the occupancy flag set, the vehicle record created. -/
def parkMutate (s : Sys) (vid vtype : String) (slotId : Nat) (rest : List (Nat × Nat)) : Sys :=
  { s with
    slots2w := if vtype = "2w" then rest else s.slots2w,
    slots4w := if vtype = "2w" then s.slots4w else rest,
    slotStatus := setA s.slotStatus slotId 1,
    vehicleMap := setA s.vehicleMap vid (slotId, vtype) }

/-- The routing query of `park_vehicle`: entrance-to-slot shortest path under
the dynamic occupancy-avoiding weights. -/
def parkPath (s : Sys) (slotId : Nat) : Option (List Nat) :=
  shortestPathChecked (dynW s.slotStatus slotId) s.edges (s.rows * s.cols) s.entry slotId

/-- The model of `ParkingSystem.park_vehicle`.  Mirrors the statement order
of the source: the already-parked and empty-queue checks mutate nothing, but
the pop / occupancy-flag / vehicle-record writes all happen before the path
query, so a `noPathFound` failure returns the mutated state `s1`. -/
def park (s : Sys) (vid vtype : String) : Sys × Except PErr ParkRes :=
  if (lookupA s.vehicleMap vid).isSome then (s, Except.error PErr.alreadyParked)
  else
    match (if vtype = "2w" then s.slots2w else s.slots4w) with
    | [] => (s, Except.error (PErr.lotFull (if vtype = "2w" then "2-Wheeler" else "4-Wheeler")))
    | (_, slotId) :: rest =>
      let s1 := parkMutate s vid vtype slotId rest
      match parkPath s1 slotId with
      | some p => (s1, Except.ok ⟨slotId, vtype, p⟩)
      | none => (s1, Except.error PErr.noPathFound)

/-- Static entrance-to-`i` distance recomputed on release
(`nx.shortest_path_length(..., weight='weight')`); `none` when `i` is
unreachable, where networkx raises `NetworkXNoPath`. -/
def staticDistOpt (s : Sys) (i : Nat) : Option Nat :=
  let d := getL (bfDistances staticW s.edges (s.rows * s.cols) s.entry) i
  if d < SENT then some d else none

/-- The first mutating half of `remove_vehicle`: pop the vehicle record and
clear the occupancy flag. -/
def leaveMutate (s : Sys) (vid : String) (slotId : Nat) : Sys :=
  { s with
    vehicleMap := eraseA s.vehicleMap vid,
    slotStatus := setA s.slotStatus slotId 0 }

/-- The second mutating half of `remove_vehicle`: push the freed slot back
into the queue selected by the recorded vehicle type. -/
def leavePush (s : Sys) (vtype : String) (d slotId : Nat) : Sys :=
  if vtype = "2w" then { s with slots2w := pqInsert (d, slotId) s.slots2w }
  else { s with slots4w := pqInsert (d, slotId) s.slots4w }

/-- The model of `ParkingSystem.remove_vehicle`.  Mirrors the statement order
of the source: the vehicle record is popped and the occupancy flag cleared
before the distance recomputation, so an unreachable slot aborts (`s1`)
without the queue reinsertion. -/
def leave (s : Sys) (vid : String) : Sys × Except PErr Nat :=
  match lookupA s.vehicleMap vid with
  | none => (s, Except.error PErr.notParked)
  | some (slotId, vtype) =>
    let s1 := leaveMutate s vid slotId
    match staticDistOpt s1 slotId with
    | none => (s1, Except.error PErr.noPathFound)
    | some d => (leavePush s1 vtype d slotId, Except.ok slotId)

/-- The state with no graph at all (used only as the error value of
`buildOk`). -/
def emptySys : Sys :=
  { rows := 0, cols := 0, nodes := [], edges := [], entry := 0, slots2w := [],
    slots4w := [], slotStatus := [], slotCat := [], vehicleMap := [] }

/-- The successfully built system of a layout (`emptySys` if the build
errors; used only on layouts whose build succeeds). -/
def buildOk (layout : List (List Char)) : Sys :=
  match build layout with
  | Except.ok s => s
  | Except.error _ => emptySys

/-- One public mutating operation of the system. -/
inductive Op
  | park (vid vtype : String)
  | leave (vid : String)

/-- Apply one operation, keeping the (possibly mutated) state whether or not
the operation succeeded — exactly what happens to the Python singleton. -/
def runOp (s : Sys) : Op → Sys
  | Op.park vid vt => (park s vid vt).1
  | Op.leave vid => (leave s vid).1

/-- Run a sequence of park/leave operations. -/
def run (s : Sys) (ops : List Op) : Sys := ops.foldl runOp s

/-- Number of queue entries carrying slot id `i`. -/
def countQ (q : List (Nat × Nat)) (i : Nat) : Nat :=
  (q.filter (fun p => p.2 == i)).length

/-- The queue/occupancy invariant of the specification: every slot id is
either Free and in exactly the queue of its fixed class, or Occupied and in
no queue. -/
def SlotQueueInv (s : Sys) : Prop :=
  ∀ p ∈ s.slotCat,
    (lookupA s.slotStatus p.1 = some 0 ∧
      countQ (if p.2 = "2w" then s.slots2w else s.slots4w) p.1 = 1 ∧
      countQ (if p.2 = "2w" then s.slots4w else s.slots2w) p.1 = 0) ∨
    (lookupA s.slotStatus p.1 = some 1 ∧ countQ s.slots2w p.1 = 0 ∧ countQ s.slots4w p.1 = 0)

instance (s : Sys) : Decidable (SlotQueueInv s) := by
  unfold SlotQueueInv
  infer_instance

/-- Every slot of the layout is reachable from the entrance in the static
graph (its recomputed static distance is defined). -/
def AllReach (s : Sys) : Prop := ∀ p ∈ s.slotCat, staticDistOpt s p.1 ≠ none

instance (s : Sys) : Decidable (AllReach s) := by
  unfold AllReach
  infer_instance

/-- The inductive state invariant maintained by `park` and `leave` (on
reachable layouts): queue entries are Free slots of the queue's class, the
bidirectional queue/occupancy invariant holds, vehicle records hold Occupied
slots whose class matches the queue the slot was popped from, and the
bookkeeping maps have no duplicate keys. -/
structure WfC3 (s : Sys) : Prop where
  q2 : ∀ p ∈ s.slots2w, lookupA s.slotCat p.2 = some "2w" ∧ lookupA s.slotStatus p.2 = some 0
  q4 : ∀ p ∈ s.slots4w, lookupA s.slotCat p.2 = some "4w" ∧ lookupA s.slotStatus p.2 = some 0
  inv : SlotQueueInv s
  veh : ∀ v ∈ s.vehicleMap, lookupA s.slotStatus v.2.1 = some 1 ∧
    lookupA s.slotCat v.2.1 = some (if v.2.2 = "2w" then "2w" else "4w")
  vehKeys : (s.vehicleMap.map (fun v => v.1)).Nodup
  vehSlots : (s.vehicleMap.map (fun v => v.2.1)).Nodup
  catKeys : (s.slotCat.map (fun p => p.1)).Nodup

/-- The edge-weight rule exactly as the specification words it: both
endpoints Roadway → 1, exactly one endpoint a Slot → 50, both Slots → 100
(an Entrance node has kind `road`, so it counts as Roadway). -/
def claimWeight (t1 t2 : NType) : Weight :=
  match t1, t2 with
  | NType.road, NType.road => 1
  | NType.slot, NType.slot => 100
  | _, _ => 50

/-- Number of stored edges between the unordered pair `{u, v}`. -/
def countKey (es : List ((Nat × Nat) × Weight)) (u v : Nat) : Nat :=
  (es.filter (fun kw => kw.1 == ekey u v)).length

/-- Kind of the cell a node id decodes to (ids are `r * cols + c` with
`c < cols`, so division and remainder recover the coordinates). -/
def typeAt (layout : List (List Char)) (cols i : Nat) : NType :=
  typeOf (charAt layout (i / cols) (i % cols))

/-- The weight every write to an edge key carries, as a function of the key
alone. -/
def wKey (layout : List (List Char)) (cols : Nat) (k : Nat × Nat) : Weight :=
  weightRule (typeAt layout cols k.1) (typeAt layout cols k.2)

/-- Invariant of the edge-construction fold: every stored key has the weight
the rule dictates for it, and keys are unique. -/
def EdgesInv (layout : List (List Char)) (cols : Nat)
    (es : List ((Nat × Nat) × Weight)) : Prop :=
  (∀ k, lookupA es k = none ∨ lookupA es k = some (wKey layout cols k)) ∧
  (es.map (fun kw => kw.1)).Nodup

/-- Entrance cell next to a roadway cell. -/
def c6wLayout : List (List Char) := [['E', 'R']]

/-- The entrance node of `c6wLayout`. -/
def c6u : NodeInfo := ⟨0, NType.road, 0, 0⟩

/-- The roadway node of `c6wLayout`. -/
def c6v : NodeInfo := ⟨1, NType.road, 0, 1⟩

/-- Layout with a slot that is materialized but disconnected from the
entrance: the `'.'` cell between them is not a node, so no path exists. -/
def c1Layout : List (List Char) := [['E', '.', 'S']]

/-- The built disconnected-slot system. -/
def c1Sys : Sys := buildOk c1Layout

/-- A layout consisting of one unrecognized character. -/
def c2Layout : List (List Char) := [['X']]

/-- Row 0 of the weighting counterexample: the entrance and a long roadway
corridor. -/
def c5row0 : List Char := 'E' :: List.replicate 52 'R'

/-- Row 1: a two-wheeler slot under the entrance, dead space, and the
corridor's right-hand return column. -/
def c5row1 : List Char := 'T' :: (List.replicate 51 '.' ++ ['R'])

/-- Row 2: the destination four-wheeler slot and the lower corridor. -/
def c5row2 : List Char := 'S' :: List.replicate 52 'R'

/-- The weighting counterexample layout: the only all-roadway route from the
entrance (id 0) to the four-wheeler slot (id 106) is a 106-edge detour of
static cost 155, while cutting through the two-wheeler slot (id 53) costs
50 + 100 = 150. -/
def c5Layout : List (List Char) := [c5row0, c5row1, c5row2]

/-- The built weighting-counterexample system. -/
def c5Sys : Sys := buildOk c5Layout

/-- The all-roadway detour of `c5Layout`: along row 0, down the right-hand
column, and back along row 2 to the destination slot. -/
def c5q : List Nat :=
  List.range 53 ++ [105] ++ (List.range 52).map (fun k => 158 - k) ++ [106]

/-- Result of parking a four-wheeler on the weighting counterexample. -/
def c5res : Sys × Except PErr ParkRes := park c5Sys "v" "4w"

/-- Decidable form of the weighting counterexample: the allocated slot is
106, the returned path passes through the foreign slot 53, and `c5q` is a
valid entrance-to-106 path whose interior nodes are all roadway. -/
def c5check : Bool :=
  match c5res with
  | (_, Except.ok res) =>
    (res.slotId == 106) && res.path.contains 53 &&
    (c5Sys.nodes.find? (fun n => n.id == 53)).any (fun n => n.ntype == NType.slot) &&
    validPathB c5Sys.edges c5q 0 106 &&
    (c5q.drop 1).dropLast.all
      (fun i => (c5Sys.nodes.find? (fun n => n.id == i)).any (fun n => n.ntype == NType.road))
  | _ => false

/-- Tiny layout whose park already routes road-only: witness material. -/
def c5wLayout : List (List Char) := [['E', 'R', 'S']]

/-- The built tiny routing system. -/
def c5wSys : Sys := buildOk c5wLayout

/-- Layout with one two-wheeler and one four-wheeler slot, both reachable. -/
def c3wLayout : List (List Char) := [['E', 'T', 'S']]

/-- The built two-class system. -/
def c3wSys : Sys := buildOk c3wLayout

/-- An operation sequence exercising both classes, double parks, releases
and class exhaustion. -/
def c3wOps : List Op :=
  [Op.park "a" "2w", Op.park "b" "4w", Op.park "b" "4w", Op.leave "a",
   Op.park "c" "4w", Op.leave "b", Op.leave "zz", Op.park "d" "2w"]

/-- Entrance next to a single four-wheeler slot. -/
def c4wLayout : List (List Char) := [['E', 'S']]

/-- The built single-slot system. -/
def c4wSys : Sys := buildOk c4wLayout

/-- Entrance, a two-wheeler slot, a road, and a four-wheeler slot in a row. -/
def c7Layout : List (List Char) := [['E', 'T', 'R', 'S']]

/-- The `c7Layout` system after the single two-wheeler slot was taken. -/
def c7Sys : Sys := (park (buildOk c7Layout) "a" "2w").1

/-- Entrance next to a single two-wheeler slot. -/
def c8Layout : List (List Char) := [['E', 'T']]

/-- The `c8Layout` system with vehicle "a" parked on the two-wheeler slot. -/
def c8Sys : Sys := (park (buildOk c8Layout) "a" "2w").1

/-- Roadway-only layout: both queues are empty. -/
def c1bLayout : List (List Char) := [['E']]

/-- The built empty-lot system. -/
def c1bSys : Sys := buildOk c1bLayout

/-- The `c4wLayout` system with vehicle "v" already parked. -/
def c1aSys : Sys := (park c4wSys "v" "4w").1

/-- Layout holding an unrecognized character next to the entrance. -/
def c2wLayout : List (List Char) := [['E', 'X']]

/-- Layout with two entrance cells. -/
def c10Layout : List (List Char) := [['E', 'E']]

/-- Layout whose four-wheeler slot is free but unreachable, with a single
reachable two-wheeler slot. -/
def c7cLayout : List (List Char) := [['E', 'T', '.', 'S']]

/-- The `c7cLayout` system after its only two-wheeler slot was taken. -/
def c7cSys : Sys := (park (buildOk c7cLayout) "a" "2w").1

/-- The operation sequence of the queue-invariant counterexample: a park that
fails with `NoPathFound` after mutating, then a leave that aborts between the
status reset and the queue reinsertion. -/
def c3cOps : List Op := [Op.park "v1" "4w", Op.leave "v1"]

theorem lookupA_setA_self {α β : Type} [DecidableEq α] (m : List (α × β)) (k : α) (v : β) :
    lookupA (setA m k v) k = some v := by
  induction m with
  | nil => simp [setA, lookupA]
  | cons h t ih =>
    obtain ⟨k', v'⟩ := h
    by_cases hk : k' = k
    · simp [setA, hk, lookupA]
    · simp [setA, hk, lookupA, ih]

theorem lookupA_setA_ne {α β : Type} [DecidableEq α] (m : List (α × β)) (k k' : α) (v : β)
    (h : k' ≠ k) : lookupA (setA m k v) k' = lookupA m k' := by
  induction m with
  | nil => simp [setA, lookupA, Ne.symm h]
  | cons p t ih =>
    obtain ⟨k0, v0⟩ := p
    by_cases hk : k0 = k
    · subst hk
      simp [setA, lookupA, Ne.symm h]
    · by_cases hk' : k0 = k'
      · subst hk'
        simp [setA, hk, lookupA]
      · simp [setA, hk, lookupA, hk', ih]

theorem lookupA_mem {α β : Type} [DecidableEq α] {m : List (α × β)} {k : α} {v : β}
    (h : lookupA m k = some v) : (k, v) ∈ m := by
  induction m with
  | nil => simp [lookupA] at h
  | cons p t ih =>
    obtain ⟨k0, v0⟩ := p
    by_cases hk : k0 = k
    · subst hk
      simp [lookupA] at h
      simp [h]
    · simp [lookupA, hk] at h
      exact List.mem_cons_of_mem _ (ih h)

theorem lookupA_none_not_mem {α β : Type} [DecidableEq α] {m : List (α × β)} {k : α}
    (h : lookupA m k = none) : ∀ v, (k, v) ∉ m := by
  induction m with
  | nil => simp
  | cons p t ih =>
    obtain ⟨k0, v0⟩ := p
    by_cases hk : k0 = k
    · simp [lookupA, hk] at h
    · simp [lookupA, hk] at h
      intro v hv
      rcases List.mem_cons.mp hv with h1 | h1
      · exact hk (congrArg Prod.fst h1).symm
      · exact ih h v h1

theorem mem_lookupA_of_nodup {α β : Type} [DecidableEq α] {m : List (α × β)} {k : α} {v : β}
    (hn : (m.map (fun p => p.1)).Nodup) (h : (k, v) ∈ m) : lookupA m k = some v := by
  induction m with
  | nil => simp at h
  | cons p t ih =>
    obtain ⟨k0, v0⟩ := p
    simp only [List.map_cons, List.nodup_cons] at hn
    rcases List.mem_cons.mp h with h1 | h1
    · obtain ⟨hk, hv⟩ := Prod.mk.injEq .. ▸ h1
      subst hk
      subst hv
      simp [lookupA]
    · by_cases hk : k0 = k
      · subst hk
        exact absurd (List.mem_map_of_mem (fun p => p.1) h1) hn.1
      · simp [lookupA, hk]
        exact ih hn.2 h1

theorem setA_fresh {α β : Type} [DecidableEq α] {m : List (α × β)} {k : α} (v : β)
    (h : lookupA m k = none) : setA m k v = m ++ [(k, v)] := by
  induction m with
  | nil => simp [setA]
  | cons p t ih =>
    obtain ⟨k0, v0⟩ := p
    by_cases hk : k0 = k
    · simp [lookupA, hk] at h
    · simp [lookupA, hk] at h
      simp [setA, hk, ih h]

theorem mem_setA {α β : Type} [DecidableEq α] {m : List (α × β)} {k : α} {v : β}
    {x : α × β} (h : x ∈ setA m k v) : x ∈ m ∨ x = (k, v) := by
  induction m with
  | nil => simp [setA] at h; simp [h]
  | cons p t ih =>
    obtain ⟨k0, v0⟩ := p
    by_cases hk : k0 = k
    · simp [setA, hk] at h
      rcases h with h | h
      · exact Or.inr (by simp [h])
      · exact Or.inl (List.mem_cons_of_mem _ h)
    · simp [setA, hk] at h
      rcases h with h | h
      · exact Or.inl (by simp [h])
      · rcases ih h with h1 | h1
        · exact Or.inl (List.mem_cons_of_mem _ h1)
        · exact Or.inr h1

theorem eraseA_sublist {α β : Type} [DecidableEq α] (m : List (α × β)) (k : α) :
    (eraseA m k).Sublist m := by
  induction m with
  | nil => simp [eraseA]
  | cons p t ih =>
    obtain ⟨k0, v0⟩ := p
    by_cases hk : k0 = k
    · simp only [eraseA, if_pos hk]
      exact List.sublist_cons_self (k0, v0) t
    · simp only [eraseA, if_neg hk]
      exact ih.cons₂ (k0, v0)

theorem eraseA_setA_fresh {α β : Type} [DecidableEq α] {m : List (α × β)} {k : α} (v : β)
    (h : lookupA m k = none) : eraseA (setA m k v) k = m := by
  rw [setA_fresh v h]
  induction m with
  | nil => simp [eraseA]
  | cons p t ih =>
    obtain ⟨k0, v0⟩ := p
    by_cases hk : k0 = k
    · simp [lookupA, hk] at h
    · simp [lookupA, hk] at h
      simp [eraseA, hk, ih h]

theorem mem_eraseA_of_nodup {α β : Type} [DecidableEq α] {m : List (α × β)} {k : α}
    {x : α × β} (hn : (m.map (fun p => p.1)).Nodup) (h : x ∈ eraseA m k) :
    x ∈ m ∧ x.1 ≠ k := by
  induction m with
  | nil => simp [eraseA] at h
  | cons p t ih =>
    obtain ⟨k0, v0⟩ := p
    simp only [List.map_cons, List.nodup_cons] at hn
    by_cases hk : k0 = k
    · subst hk
      simp only [eraseA, if_pos rfl] at h
      refine ⟨List.mem_cons_of_mem _ h, ?_⟩
      intro hx
      exact hn.1 (hx ▸ List.mem_map_of_mem (fun p => p.1) h)
    · simp only [eraseA, if_neg hk] at h
      rcases List.mem_cons.mp h with h1 | h1
      · subst h1
        exact ⟨List.mem_cons_self _ _, hk⟩
      · obtain ⟨hm, hne⟩ := ih hn.2 h1
        exact ⟨List.mem_cons_of_mem _ hm, hne⟩

theorem mem_pqInsert {x y : Nat × Nat} {q : List (Nat × Nat)} :
    y ∈ pqInsert x q ↔ y = x ∨ y ∈ q := by
  induction q with
  | nil => simp [pqInsert]
  | cons p t ih =>
    by_cases h : pairLe x p
    · simp [pqInsert, h]
    · simp [pqInsert, h, ih]
      tauto

theorem countQ_nil (i : Nat) : countQ [] i = 0 := rfl

theorem countQ_cons (p : Nat × Nat) (q : List (Nat × Nat)) (i : Nat) :
    countQ (p :: q) i = (if p.2 = i then 1 else 0) + countQ q i := by
  by_cases h : p.2 = i
  · simp [countQ, List.filter_cons, h, Nat.add_comm]
  · simp [countQ, List.filter_cons, h]

theorem countQ_pqInsert (x : Nat × Nat) (q : List (Nat × Nat)) (i : Nat) :
    countQ (pqInsert x q) i = countQ q i + (if x.2 = i then 1 else 0) := by
  induction q with
  | nil => simp [pqInsert, countQ_cons, countQ_nil, Nat.add_comm]
  | cons p t ih =>
    by_cases h : pairLe x p
    · simp [pqInsert, h, countQ_cons]
      omega
    · simp [pqInsert, h, countQ_cons, ih]
      omega

theorem countQ_eq_zero {q : List (Nat × Nat)} {i : Nat} (h : countQ q i = 0) :
    ∀ p ∈ q, p.2 ≠ i := by
  intro p hp
  induction q with
  | nil => simp at hp
  | cons p0 t ih =>
    rw [countQ_cons] at h
    rcases List.mem_cons.mp hp with h1 | h1
    · subst h1
      intro hpi
      simp [hpi] at h
    · exact ih (by omega) h1

theorem pos_countQ_of_mem {q : List (Nat × Nat)} {p : Nat × Nat} (hp : p ∈ q) :
    0 < countQ q p.2 := by
  induction q with
  | nil => simp at hp
  | cons p0 t ih =>
    rw [countQ_cons]
    rcases List.mem_cons.mp hp with h1 | h1
    · simp [← h1]
    · have := ih h1
      omega

theorem pqInsert_head_le (x : Nat × Nat) (q : List (Nat × Nat))
    (h : ∀ y ∈ q, pairLe x y) : pqInsert x q = x :: q := by
  cases q with
  | nil => rfl
  | cons p t => simp [pqInsert, h p (List.mem_cons_self p t)]

theorem park_fields (s : Sys) (vid vt : String) :
    (park s vid vt).1.rows = s.rows ∧ (park s vid vt).1.cols = s.cols ∧
    (park s vid vt).1.nodes = s.nodes ∧ (park s vid vt).1.edges = s.edges ∧
    (park s vid vt).1.entry = s.entry ∧ (park s vid vt).1.slotCat = s.slotCat := by
  simp only [park]
  split
  · exact ⟨rfl, rfl, rfl, rfl, rfl, rfl⟩
  · split
    · exact ⟨rfl, rfl, rfl, rfl, rfl, rfl⟩
    · split <;> exact ⟨rfl, rfl, rfl, rfl, rfl, rfl⟩

theorem leave_fields (s : Sys) (vid : String) :
    (leave s vid).1.rows = s.rows ∧ (leave s vid).1.cols = s.cols ∧
    (leave s vid).1.nodes = s.nodes ∧ (leave s vid).1.edges = s.edges ∧
    (leave s vid).1.entry = s.entry ∧ (leave s vid).1.slotCat = s.slotCat := by
  simp only [leave]
  split
  · exact ⟨rfl, rfl, rfl, rfl, rfl, rfl⟩
  · split
    · exact ⟨rfl, rfl, rfl, rfl, rfl, rfl⟩
    · simp only [leavePush]
      split <;> exact ⟨rfl, rfl, rfl, rfl, rfl, rfl⟩

theorem staticDistOpt_congr {s t : Sys} (he : s.edges = t.edges) (hr : s.rows = t.rows)
    (hc : s.cols = t.cols) (hn : s.entry = t.entry) (i : Nat) :
    staticDistOpt s i = staticDistOpt t i := by
  simp only [staticDistOpt, he, hr, hc, hn]

/-- C1 (amended): the failures raised by the precondition checks —
`AlreadyParked`, the class-specific `LotFull`, and `NotParked` — occur before
the mutating half of the operation and leave the state exactly unchanged.
(The original claim also asserted this for `NoPathFound`; the counterexample
shows a `NoPathFound` park happens after the queue pop, occupancy write and
vehicle-record write and keeps those mutations.) -/
theorem C1_precondition_failures_leave_state_unchanged (s : Sys) (vid vt qn : String) :
    ((park s vid vt).2 = Except.error PErr.alreadyParked → (park s vid vt).1 = s) ∧
    ((park s vid vt).2 = Except.error (PErr.lotFull qn) → (park s vid vt).1 = s) ∧
    ((leave s vid).2 = Except.error PErr.notParked → (leave s vid).1 = s) := by
  refine ⟨?_, ?_, ?_⟩
  · simp only [park]
    split
    · intro _
      rfl
    · split
      · intro h
        simp at h
      · split <;> (intro h; simp at h)
  · simp only [park]
    split
    · intro h
      simp at h
    · split
      · intro _
        rfl
      · split <;> (intro h; simp at h)
  · simp only [leave]
    split
    · intro _
      rfl
    · split <;> (intro h; simp at h)

/-- C1 counterexample: on the disconnected layout `c1Layout`, parking fails
with `NoPathFound` (in the source an untyped `networkx.NetworkXNoPath`
escaping as a 500, not one of the typed `HTTPException`s), yet the allocator
queue lost its entry, the slot is flagged occupied and the vehicle record
exists — the state is mutated by the failed call. -/
theorem C1_counterexample_noPathFound_mutates :
    (park c1Sys "v1" "4w").2 = Except.error PErr.noPathFound ∧
    c1Sys.slots4w = [(9999, 2)] ∧
    (park c1Sys "v1" "4w").1.slots4w = [] ∧
    lookupA (park c1Sys "v1" "4w").1.slotStatus 2 = some 1 ∧
    lookupA (park c1Sys "v1" "4w").1.vehicleMap "v1" = some (2, "4w") := by
  decide

/-- Witness for C1: each of the three precondition failures at a concrete
state, with the state returned unchanged. -/
theorem C1_witness :
    (park c1aSys "v" "4w").1 = c1aSys ∧ (park c1bSys "w" "4w").1 = c1bSys ∧
    (leave c1bSys "z").1 = c1bSys :=
  ⟨(C1_precondition_failures_leave_state_unchanged c1aSys "v" "4w" "x").1 (by decide),
   (C1_precondition_failures_leave_state_unchanged c1bSys "w" "4w" "4-Wheeler").2.1 (by decide),
   (C1_precondition_failures_leave_state_unchanged c1bSys "z" "4w" "x").2.2 (by decide)⟩

/-- C9: for any vehicle-type string other than `"2w"` (the source tests only
`vehicle_type == "2w"`), park pops the four-wheeler queue and stores the
given string verbatim in the vehicle record. -/
theorem C9_non_2w_strings_use_4w_queue_and_are_stored_verbatim
    (s : Sys) (vid vt : String) (d i : Nat) (rest : List (Nat × Nat))
    (hvt : vt ≠ "2w") (hvid : lookupA s.vehicleMap vid = none)
    (hq : s.slots4w = (d, i) :: rest) :
    (park s vid vt).1.slots4w = rest ∧
    (park s vid vt).1.slots2w = s.slots2w ∧
    lookupA (park s vid vt).1.vehicleMap vid = some (i, vt) := by
  have h1 : (lookupA s.vehicleMap vid).isSome = false := by simp [hvid]
  simp only [park, h1, Bool.false_eq_true, if_false, if_neg hvt, hq]
  split <;>
    exact ⟨by simp [parkMutate, hvt], by simp [parkMutate, hvt],
      by simp [parkMutate]; exact lookupA_setA_self ..⟩

/-- Witness for C9 at the empty vehicle-type string. -/
theorem C9_witness :
    (park c4wSys "bike" "").1.slots4w = [] ∧
    (park c4wSys "bike" "").1.slots2w = c4wSys.slots2w ∧
    lookupA (park c4wSys "bike" "").1.vehicleMap "bike" = some (1, "") :=
  C9_non_2w_strings_use_4w_queue_and_are_stored_verbatim c4wSys "bike" "" 50 1 []
    (by decide) (by decide) (by decide)

/-- C8: `leave` reads the class recorded at park time from the vehicle record
and reinserts the vacated slot into the queue that class selects; if the
recorded class selects the queue matching the slot's category — as every
`park` guarantees — the queue partition by category is preserved. -/
theorem C8_leave_reinserts_by_recorded_class
    (s : Sys) (vid : String) (i d : Nat) (vt : String)
    (hv : lookupA s.vehicleMap vid = some (i, vt))
    (hd : staticDistOpt (leaveMutate s vid i) i = some d)
    (hq2 : ∀ p ∈ s.slots2w, lookupA s.slotCat p.2 = some "2w")
    (hq4 : ∀ p ∈ s.slots4w, lookupA s.slotCat p.2 = some "4w")
    (hcat : lookupA s.slotCat i = some (if vt = "2w" then "2w" else "4w")) :
    (leave s vid).2 = Except.ok i ∧
    (leave s vid).1.slots2w = (if vt = "2w" then pqInsert (d, i) s.slots2w else s.slots2w) ∧
    (leave s vid).1.slots4w = (if vt = "2w" then s.slots4w else pqInsert (d, i) s.slots4w) ∧
    (∀ p ∈ (leave s vid).1.slots2w, lookupA s.slotCat p.2 = some "2w") ∧
    (∀ p ∈ (leave s vid).1.slots4w, lookupA s.slotCat p.2 = some "4w") := by
  simp only [leave, hv, hd]
  by_cases h2 : vt = "2w"
  · simp only [leavePush, h2, if_pos rfl, leaveMutate]
    refine ⟨by trivial, by trivial, by trivial, ?_, ?_⟩
    · intro p hp
      rcases mem_pqInsert.mp hp with h | h
      · subst h
        simpa [h2] using hcat
      · exact hq2 p h
    · exact hq4
  · simp only [leavePush, if_neg h2, leaveMutate]
    refine ⟨by trivial, by trivial, by trivial, ?_, ?_⟩
    · exact hq2
    · intro p hp
      rcases mem_pqInsert.mp hp with h | h
      · subst h
        simpa [h2] using hcat
      · exact hq4 p h

/-- Witness for C8: releasing the parked two-wheeler on `c8Sys`. -/
theorem C8_witness :
    (leave c8Sys "a").2 = Except.ok 1 ∧
    (leave c8Sys "a").1.slots2w =
      (if "2w" = "2w" then pqInsert (50, 1) c8Sys.slots2w else c8Sys.slots2w) ∧
    (leave c8Sys "a").1.slots4w =
      (if "2w" = "2w" then c8Sys.slots4w else pqInsert (50, 1) c8Sys.slots4w) ∧
    (∀ p ∈ (leave c8Sys "a").1.slots2w, lookupA c8Sys.slotCat p.2 = some "2w") ∧
    (∀ p ∈ (leave c8Sys "a").1.slots4w, lookupA c8Sys.slotCat p.2 = some "4w") :=
  C8_leave_reinserts_by_recorded_class c8Sys "a" 1 50 "2w" (by decide) (by decide)
    (by decide) (by decide) (by decide)

/-- C4: a successful park immediately followed by a leave of the same vehicle
restores both allocator queues exactly: the popped pair — same slot id, same
static distance — is reinserted where it was popped.  The hypotheses are the
allocator-queue invariants holding in every reachable state: every queue
entry carries the slot's current static distance, and the queues are sorted
by `(distance, id)`. -/
theorem C4_park_then_leave_restores_queues
    (s s1 : Sys) (vid vt : String) (res : ParkRes)
    (hd2 : ∀ p ∈ s.slots2w, staticDistOpt s p.2 = some p.1)
    (hd4 : ∀ p ∈ s.slots4w, staticDistOpt s p.2 = some p.1)
    (hs2 : List.Pairwise pairLe s.slots2w)
    (hs4 : List.Pairwise pairLe s.slots4w)
    (hpk : park s vid vt = (s1, Except.ok res)) :
    (leave s1 vid).2 = Except.ok res.slotId ∧
    (leave s1 vid).1.slots2w = s.slots2w ∧
    (leave s1 vid).1.slots4w = s.slots4w := by
  rcases hv : lookupA s.vehicleMap vid with _ | v
  case some =>
    rw [show park s vid vt = (s, Except.error PErr.alreadyParked) by simp [park, hv]] at hpk
    simp at hpk
  case none =>
  rcases hq : (if vt = "2w" then s.slots2w else s.slots4w) with _ | ⟨⟨d0, i⟩, rest⟩
  · rw [show park s vid vt =
        (s, Except.error (PErr.lotFull (if vt = "2w" then "2-Wheeler" else "4-Wheeler"))) by
      simp [park, hv, hq]] at hpk
    simp at hpk
  rcases hp : parkPath (parkMutate s vid vt i rest) i with _ | p
  · rw [show park s vid vt = (parkMutate s vid vt i rest, Except.error PErr.noPathFound) by
      simp [park, hv, hq, hp]] at hpk
    simp at hpk
  rw [show park s vid vt = (parkMutate s vid vt i rest, Except.ok ⟨i, vt, p⟩) by
    simp [park, hv, hq, hp]] at hpk
  have hs1 : parkMutate s vid vt i rest = s1 := congrArg Prod.fst hpk
  have hres : res = ⟨i, vt, p⟩ := (Except.ok.inj (congrArg Prod.snd hpk)).symm
  subst hs1
  subst hres
  have hlv : lookupA (parkMutate s vid vt i rest).vehicleMap vid = some (i, vt) := by
    simp only [parkMutate]
    exact lookupA_setA_self ..
  have hdi : staticDistOpt s i = some d0 := by
    by_cases h2 : vt = "2w"
    · rw [if_pos h2] at hq
      exact hd2 (d0, i) (hq ▸ List.mem_cons_self ..)
    · rw [if_neg h2] at hq
      exact hd4 (d0, i) (hq ▸ List.mem_cons_self ..)
  have hd' : staticDistOpt (leaveMutate (parkMutate s vid vt i rest) vid i) i = some d0 := by
    rw [staticDistOpt_congr rfl rfl rfl rfl i]
    exact hdi
  simp only [leave, hlv, hd']
  by_cases h2 : vt = "2w"
  · rw [if_pos h2] at hq
    have hle : ∀ y ∈ rest, pairLe (d0, i) y := by
      have h' := hq ▸ hs2
      exact (List.pairwise_cons.mp h').1
    refine ⟨by trivial, ?_, ?_⟩
    · simp only [leavePush, if_pos h2, leaveMutate, parkMutate, if_pos h2]
      rw [pqInsert_head_le _ _ hle]
      exact hq.symm
    · simp only [leavePush, if_pos h2, leaveMutate, parkMutate, if_pos h2]
  · rw [if_neg h2] at hq
    have hle : ∀ y ∈ rest, pairLe (d0, i) y := by
      have h' := hq ▸ hs4
      exact (List.pairwise_cons.mp h').1
    refine ⟨by trivial, ?_, ?_⟩
    · simp only [leavePush, if_neg h2, leaveMutate, parkMutate, if_neg h2]
    · simp only [leavePush, if_neg h2, leaveMutate, parkMutate, if_neg h2]
      rw [pqInsert_head_le _ _ hle]
      exact hq.symm

/-- Witness for C4 on the one-slot layout `c4wLayout`. -/
theorem C4_witness :
    (leave (park c4wSys "car" "4w").1 "car").2 =
      Except.ok (ParkRes.mk 1 "4w" [0, 1]).slotId ∧
    (leave (park c4wSys "car" "4w").1 "car").1.slots2w = c4wSys.slots2w ∧
    (leave (park c4wSys "car" "4w").1 "car").1.slots4w = c4wSys.slots4w :=
  C4_park_then_leave_restores_queues c4wSys (park c4wSys "car" "4w").1 "car" "4w"
    ⟨1, "4w", [0, 1]⟩ (by decide) (by decide) (by decide) (by decide) (by decide)

/-- C7 (amended): when every two-wheeler slot is occupied, the next
two-wheeler park fails with the class-specific `LotFull` and mutates
nothing, while a four-wheeler park still allocates whenever the four-wheeler
queue is non-empty and its nearest slot is routable; class exhaustion never
leaks across queues.  (The original claim promised success whenever the other
class merely has a free slot; the counterexample shows a free but unreachable
slot makes that park raise `NoPathFound` instead of succeeding.) -/
theorem C7_lotFull_is_class_specific
    (s : Sys) (vidA vidB : String) (d i : Nat) (rest : List (Nat × Nat))
    (hfull : ∀ p ∈ s.slotCat, p.2 = "2w" → lookupA s.slotStatus p.1 = some 1)
    (hq2 : ∀ p ∈ s.slots2w, lookupA s.slotCat p.2 = some "2w" ∧
      lookupA s.slotStatus p.2 = some 0)
    (hA : lookupA s.vehicleMap vidA = none)
    (hq4 : s.slots4w = (d, i) :: rest)
    (hB : lookupA s.vehicleMap vidB = none)
    (hpath : parkPath (parkMutate s vidB "4w" i rest) i ≠ none) :
    park s vidA "2w" = (s, Except.error (PErr.lotFull "2-Wheeler")) ∧
    (∃ p, park s vidB "4w" = (parkMutate s vidB "4w" i rest, Except.ok ⟨i, "4w", p⟩)) := by
  have h2e : s.slots2w = [] := by
    cases hq2e : s.slots2w with
    | nil => rfl
    | cons p t =>
      obtain ⟨hcat, hst⟩ := hq2 p (hq2e ▸ List.mem_cons_self p t)
      have hocc := hfull (p.2, "2w") (lookupA_mem hcat) rfl
      rw [hocc] at hst
      simp at hst
  constructor
  · simp [park, hA, h2e]
  · rcases hp : parkPath (parkMutate s vidB "4w" i rest) i with _ | p
    · exact absurd hp hpath
    · exact ⟨p, by simp [park, hB, hq4, hp]⟩

/-- Witness for C7: on `c7Sys` the single two-wheeler slot is taken, so a
two-wheeler park fails `LotFull("2-Wheeler")` unchanged while a four-wheeler
park succeeds. -/
theorem C7_witness :
    park c7Sys "b" "2w" = (c7Sys, Except.error (PErr.lotFull "2-Wheeler")) ∧
    (∃ p, park c7Sys "c" "4w" = (parkMutate c7Sys "c" "4w" 3 [], Except.ok ⟨3, "4w", p⟩)) :=
  C7_lotFull_is_class_specific c7Sys "b" "c" 150 3 [] (by decide) (by decide) (by decide)
    (by decide) (by decide) (by decide)

theorem not_mem_keys_of_lookupA_none {α β : Type} [DecidableEq α] {m : List (α × β)} {k : α}
    (h : lookupA m k = none) : k ∉ m.map (fun p => p.1) := by
  intro hm
  obtain ⟨x, hx, hx1⟩ := List.mem_map.mp hm
  apply lookupA_none_not_mem h x.2
  have hx' : (x.1, x.2) ∈ m := by simpa using hx
  rwa [hx1] at hx'

theorem park_wf (s : Sys) (vid vt : String) (h : WfC3 s) : WfC3 (park s vid vt).1 := by
  rcases hv : lookupA s.vehicleMap vid with _ | v
  case some =>
    have he : (park s vid vt).1 = s := by simp [park, hv]
    rw [he]
    exact h
  case none =>
  rcases hq : (if vt = "2w" then s.slots2w else s.slots4w) with _ | ⟨⟨d0, i⟩, rest⟩
  · have he : (park s vid vt).1 = s := by simp [park, hv, hq]
    rw [he]
    exact h
  have he : (park s vid vt).1 = parkMutate s vid vt i rest := by
    rcases hp : parkPath (parkMutate s vid vt i rest) i with _ | p <;> simp [park, hv, hq, hp]
  rw [he]
  have hvidkey : vid ∉ s.vehicleMap.map (fun v => v.1) := not_mem_keys_of_lookupA_none hv
  by_cases h2 : vt = "2w"
  · rw [if_pos h2] at hq
    have hhead := h.q2 (d0, i) (hq ▸ List.mem_cons_self ..)
    have hislot : i ∉ s.vehicleMap.map (fun v => v.2.1) := by
      intro hm
      obtain ⟨x, hx, hx1⟩ := List.mem_map.mp hm
      have hx2 := (h.veh x hx).1
      rw [hx1, hhead.2] at hx2
      simp at hx2
    have hinv := h.inv (i, "2w") (lookupA_mem hhead.1)
    rcases hinv with ⟨_, hc1, hc0⟩ | ⟨habs, _, _⟩
    swap
    · rw [hhead.2] at habs
      simp at habs
    rw [if_pos rfl] at hc1 hc0
    have hrest0 : countQ rest i = 0 := by
      rw [hq, countQ_cons] at hc1
      simp at hc1
      omega
    have hrestne := countQ_eq_zero hrest0
    have h4ne := countQ_eq_zero hc0
    have hS : parkMutate s vid vt i rest =
        { s with
          slots2w := rest
          slotStatus := setA s.slotStatus i 1
          vehicleMap := setA s.vehicleMap vid (i, vt) } := by
      simp [parkMutate, h2]
    rw [hS]
    refine ⟨?_, ?_, ?_, ?_, ?_, ?_, ?_⟩
    · intro p hp
      have hmem := h.q2 p (hq ▸ List.mem_cons_of_mem _ hp)
      exact ⟨hmem.1, by rw [lookupA_setA_ne _ _ _ _ (hrestne p hp)]; exact hmem.2⟩
    · intro p hp
      have hmem := h.q4 p hp
      exact ⟨hmem.1, by rw [lookupA_setA_ne _ _ _ _ (h4ne p hp)]; exact hmem.2⟩
    · intro p hp
      by_cases hpi : p.1 = i
      · have hl := mem_lookupA_of_nodup h.catKeys hp
        rw [hpi, hhead.1] at hl
        refine Or.inr ⟨?_, ?_, ?_⟩
        · rw [hpi]
          exact lookupA_setA_self ..
        · rw [hpi]
          exact hrest0
        · rw [hpi]
          exact hc0
      · rcases h.inv p hp with ⟨ha, hb, hcx⟩ | ⟨ha, hb, hcx⟩
        · refine Or.inl ⟨?_, ?_, ?_⟩
          · rw [lookupA_setA_ne _ _ _ _ hpi]
            exact ha
          · by_cases hp2 : p.2 = "2w"
            · rw [if_pos hp2]
              rw [if_pos hp2, hq, countQ_cons] at hb
              simp [Ne.symm hpi] at hb
              exact hb
            · rw [if_neg hp2]
              rw [if_neg hp2] at hb
              exact hb
          · by_cases hp2 : p.2 = "2w"
            · rw [if_pos hp2]
              rw [if_pos hp2] at hcx
              exact hcx
            · rw [if_neg hp2]
              rw [if_neg hp2, hq, countQ_cons] at hcx
              simp [Ne.symm hpi] at hcx
              exact hcx
        · refine Or.inr ⟨?_, ?_, ?_⟩
          · rw [lookupA_setA_ne _ _ _ _ hpi]
            exact ha
          · rw [hq, countQ_cons] at hb
            simp [Ne.symm hpi] at hb
            exact hb
          · exact hcx
    · intro x hx
      rcases mem_setA hx with hold | hnew
      · obtain ⟨hst, hct⟩ := h.veh x hold
        have hne : x.2.1 ≠ i := by
          intro heq
          rw [heq, hhead.2] at hst
          simp at hst
        exact ⟨by rw [lookupA_setA_ne _ _ _ _ hne]; exact hst, hct⟩
      · subst hnew
        refine ⟨lookupA_setA_self .., ?_⟩
        rw [if_pos h2]
        exact hhead.1
    · rw [setA_fresh _ hv, List.map_append]
      simp only [List.map_cons, List.map_nil]
      rw [List.nodup_append]
      exact ⟨h.vehKeys, List.nodup_singleton _, by simpa using hvidkey⟩
    · rw [setA_fresh _ hv, List.map_append]
      simp only [List.map_cons, List.map_nil]
      rw [List.nodup_append]
      exact ⟨h.vehSlots, List.nodup_singleton _, by simpa using hislot⟩
    · exact h.catKeys
  · rw [if_neg h2] at hq
    have hhead := h.q4 (d0, i) (hq ▸ List.mem_cons_self ..)
    have hislot : i ∉ s.vehicleMap.map (fun v => v.2.1) := by
      intro hm
      obtain ⟨x, hx, hx1⟩ := List.mem_map.mp hm
      have hx2 := (h.veh x hx).1
      rw [hx1, hhead.2] at hx2
      simp at hx2
    have hinv := h.inv (i, "4w") (lookupA_mem hhead.1)
    have h4w2w : ("4w" : String) ≠ "2w" := by decide
    rcases hinv with ⟨_, hc1, hc0⟩ | ⟨habs, _, _⟩
    swap
    · rw [hhead.2] at habs
      simp at habs
    rw [if_neg h4w2w] at hc1 hc0
    have hrest0 : countQ rest i = 0 := by
      rw [hq, countQ_cons] at hc1
      simp at hc1
      omega
    have hrestne := countQ_eq_zero hrest0
    have h2ne := countQ_eq_zero hc0
    have hS : parkMutate s vid vt i rest =
        { s with
          slots4w := rest
          slotStatus := setA s.slotStatus i 1
          vehicleMap := setA s.vehicleMap vid (i, vt) } := by
      simp [parkMutate, h2]
    rw [hS]
    refine ⟨?_, ?_, ?_, ?_, ?_, ?_, ?_⟩
    · intro p hp
      have hmem := h.q2 p hp
      exact ⟨hmem.1, by rw [lookupA_setA_ne _ _ _ _ (h2ne p hp)]; exact hmem.2⟩
    · intro p hp
      have hmem := h.q4 p (hq ▸ List.mem_cons_of_mem _ hp)
      exact ⟨hmem.1, by rw [lookupA_setA_ne _ _ _ _ (hrestne p hp)]; exact hmem.2⟩
    · intro p hp
      by_cases hpi : p.1 = i
      · have hl := mem_lookupA_of_nodup h.catKeys hp
        rw [hpi, hhead.1] at hl
        refine Or.inr ⟨?_, ?_, ?_⟩
        · rw [hpi]
          exact lookupA_setA_self ..
        · rw [hpi]
          exact hc0
        · rw [hpi]
          exact hrest0
      · rcases h.inv p hp with ⟨ha, hb, hcx⟩ | ⟨ha, hb, hcx⟩
        · refine Or.inl ⟨?_, ?_, ?_⟩
          · rw [lookupA_setA_ne _ _ _ _ hpi]
            exact ha
          · by_cases hp2 : p.2 = "2w"
            · rw [if_pos hp2]
              rw [if_pos hp2] at hb
              exact hb
            · rw [if_neg hp2]
              rw [if_neg hp2, hq, countQ_cons] at hb
              simp [Ne.symm hpi] at hb
              exact hb
          · by_cases hp2 : p.2 = "2w"
            · rw [if_pos hp2]
              rw [if_pos hp2, hq, countQ_cons] at hcx
              simp [Ne.symm hpi] at hcx
              exact hcx
            · rw [if_neg hp2]
              rw [if_neg hp2] at hcx
              exact hcx
        · refine Or.inr ⟨?_, ?_, ?_⟩
          · rw [lookupA_setA_ne _ _ _ _ hpi]
            exact ha
          · exact hb
          · rw [hq, countQ_cons] at hcx
            simp [Ne.symm hpi] at hcx
            exact hcx
    · intro x hx
      rcases mem_setA hx with hold | hnew
      · obtain ⟨hst, hct⟩ := h.veh x hold
        have hne : x.2.1 ≠ i := by
          intro heq
          rw [heq, hhead.2] at hst
          simp at hst
        exact ⟨by rw [lookupA_setA_ne _ _ _ _ hne]; exact hst, hct⟩
      · subst hnew
        refine ⟨lookupA_setA_self .., ?_⟩
        rw [if_neg h2]
        exact hhead.1
    · rw [setA_fresh _ hv, List.map_append]
      simp only [List.map_cons, List.map_nil]
      rw [List.nodup_append]
      exact ⟨h.vehKeys, List.nodup_singleton _, by simpa using hvidkey⟩
    · rw [setA_fresh _ hv, List.map_append]
      simp only [List.map_cons, List.map_nil]
      rw [List.nodup_append]
      exact ⟨h.vehSlots, List.nodup_singleton _, by simpa using hislot⟩
    · exact h.catKeys

theorem leave_wf (s : Sys) (vid : String) (h : WfC3 s) (hr : AllReach s) :
    WfC3 (leave s vid).1 := by
  rcases hv : lookupA s.vehicleMap vid with _ | ⟨i, vt⟩
  · have he : (leave s vid).1 = s := by simp [leave, hv]
    rw [he]
    exact h
  obtain ⟨hst1, hcat⟩ := h.veh (vid, i, vt) (lookupA_mem hv)
  have hcatmem : (i, if vt = "2w" then "2w" else "4w") ∈ s.slotCat := lookupA_mem hcat
  have hd0 : staticDistOpt s i ≠ none := hr _ hcatmem
  rcases hdo : staticDistOpt (leaveMutate s vid i) i with _ | d
  · rw [staticDistOpt_congr rfl rfl rfl rfl i] at hdo
    exact absurd hdo hd0
  have he : (leave s vid).1 = leavePush (leaveMutate s vid i) vt d i := by
    simp [leave, hv, hdo]
  rw [he]
  have hinv := h.inv (i, if vt = "2w" then "2w" else "4w") hcatmem
  rcases hinv with ⟨habs, _, _⟩ | ⟨_, hc2, hc4⟩
  · rw [hst1] at habs
    simp at habs
  have h2ne := countQ_eq_zero hc2
  have h4ne := countQ_eq_zero hc4
  have hvehrest : ∀ x, x ∈ eraseA s.vehicleMap vid → x ∈ s.vehicleMap ∧ x.2.1 ≠ i := by
    intro x hx
    obtain ⟨hxm, hxk⟩ := mem_eraseA_of_nodup h.vehKeys hx
    refine ⟨hxm, ?_⟩
    intro heq
    have hxe : x = (vid, i, vt) := by
      apply List.inj_on_of_nodup_map h.vehSlots hxm (lookupA_mem hv)
      exact heq
    exact hxk (congrArg Prod.fst hxe)
  by_cases h2 : vt = "2w"
  · have hS : leavePush (leaveMutate s vid i) vt d i =
        { s with
          slots2w := pqInsert (d, i) s.slots2w
          slotStatus := setA s.slotStatus i 0
          vehicleMap := eraseA s.vehicleMap vid } := by
      simp [leavePush, leaveMutate, h2]
    rw [hS]
    rw [if_pos h2] at hcat
    refine ⟨?_, ?_, ?_, ?_, ?_, ?_, ?_⟩
    · intro p hp
      rcases mem_pqInsert.mp hp with hnew | hold
      · subst hnew
        exact ⟨hcat, lookupA_setA_self ..⟩
      · have hmem := h.q2 p hold
        exact ⟨hmem.1, by rw [lookupA_setA_ne _ _ _ _ (h2ne p hold)]; exact hmem.2⟩
    · intro p hp
      have hmem := h.q4 p hp
      exact ⟨hmem.1, by rw [lookupA_setA_ne _ _ _ _ (h4ne p hp)]; exact hmem.2⟩
    · intro p hp
      by_cases hpi : p.1 = i
      · have hl := mem_lookupA_of_nodup h.catKeys hp
        rw [hpi, hcat] at hl
        have hp2 : p.2 = "2w" := (Option.some.inj hl).symm
        refine Or.inl ⟨?_, ?_, ?_⟩
        · rw [hpi]
          exact lookupA_setA_self ..
        · rw [if_pos hp2, hpi, countQ_pqInsert]
          simp [hc2]
        · rw [if_pos hp2, hpi]
          exact hc4
      · rcases h.inv p hp with ⟨ha, hb, hcx⟩ | ⟨ha, hb, hcx⟩
        · refine Or.inl ⟨?_, ?_, ?_⟩
          · rw [lookupA_setA_ne _ _ _ _ hpi]
            exact ha
          · by_cases hp2 : p.2 = "2w"
            · rw [if_pos hp2, countQ_pqInsert]
              rw [if_pos hp2] at hb
              simp [Ne.symm hpi]
              exact hb
            · rw [if_neg hp2]
              rw [if_neg hp2] at hb
              exact hb
          · by_cases hp2 : p.2 = "2w"
            · rw [if_pos hp2]
              rw [if_pos hp2] at hcx
              exact hcx
            · rw [if_neg hp2, countQ_pqInsert]
              rw [if_neg hp2] at hcx
              simp [Ne.symm hpi]
              exact hcx
        · refine Or.inr ⟨?_, ?_, ?_⟩
          · rw [lookupA_setA_ne _ _ _ _ hpi]
            exact ha
          · rw [countQ_pqInsert]
            simp [Ne.symm hpi]
            exact hb
          · exact hcx
    · intro x hx
      obtain ⟨hxm, hxne⟩ := hvehrest x hx
      obtain ⟨hst, hct⟩ := h.veh x hxm
      exact ⟨by rw [lookupA_setA_ne _ _ _ _ hxne]; exact hst, hct⟩
    · exact ((eraseA_sublist ..).map _).nodup h.vehKeys
    · exact ((eraseA_sublist ..).map _).nodup h.vehSlots
    · exact h.catKeys
  · have hS : leavePush (leaveMutate s vid i) vt d i =
        { s with
          slots4w := pqInsert (d, i) s.slots4w
          slotStatus := setA s.slotStatus i 0
          vehicleMap := eraseA s.vehicleMap vid } := by
      simp [leavePush, leaveMutate, h2]
    rw [hS]
    rw [if_neg h2] at hcat
    refine ⟨?_, ?_, ?_, ?_, ?_, ?_, ?_⟩
    · intro p hp
      have hmem := h.q2 p hp
      exact ⟨hmem.1, by rw [lookupA_setA_ne _ _ _ _ (h2ne p hp)]; exact hmem.2⟩
    · intro p hp
      rcases mem_pqInsert.mp hp with hnew | hold
      · subst hnew
        exact ⟨hcat, lookupA_setA_self ..⟩
      · have hmem := h.q4 p hold
        exact ⟨hmem.1, by rw [lookupA_setA_ne _ _ _ _ (h4ne p hold)]; exact hmem.2⟩
    · intro p hp
      by_cases hpi : p.1 = i
      · have hl := mem_lookupA_of_nodup h.catKeys hp
        rw [hpi, hcat] at hl
        have hp4 : p.2 = "4w" := (Option.some.inj hl).symm
        have hp2w : p.2 ≠ "2w" := by
          rw [hp4]
          decide
        refine Or.inl ⟨?_, ?_, ?_⟩
        · rw [hpi]
          exact lookupA_setA_self ..
        · rw [if_neg hp2w, hpi, countQ_pqInsert]
          simp [hc4]
        · rw [if_neg hp2w, hpi]
          exact hc2
      · rcases h.inv p hp with ⟨ha, hb, hcx⟩ | ⟨ha, hb, hcx⟩
        · refine Or.inl ⟨?_, ?_, ?_⟩
          · rw [lookupA_setA_ne _ _ _ _ hpi]
            exact ha
          · by_cases hp2 : p.2 = "2w"
            · rw [if_pos hp2]
              rw [if_pos hp2] at hb
              exact hb
            · rw [if_neg hp2, countQ_pqInsert]
              rw [if_neg hp2] at hb
              simp [Ne.symm hpi]
              exact hb
          · by_cases hp2 : p.2 = "2w"
            · rw [if_pos hp2, countQ_pqInsert]
              rw [if_pos hp2] at hcx
              simp [Ne.symm hpi]
              exact hcx
            · rw [if_neg hp2]
              rw [if_neg hp2] at hcx
              exact hcx
        · refine Or.inr ⟨?_, ?_, ?_⟩
          · rw [lookupA_setA_ne _ _ _ _ hpi]
            exact ha
          · exact hb
          · rw [countQ_pqInsert]
            simp [Ne.symm hpi]
            exact hcx
    · intro x hx
      obtain ⟨hxm, hxne⟩ := hvehrest x hx
      obtain ⟨hst, hct⟩ := h.veh x hxm
      exact ⟨by rw [lookupA_setA_ne _ _ _ _ hxne]; exact hst, hct⟩
    · exact ((eraseA_sublist ..).map _).nodup h.vehKeys
    · exact ((eraseA_sublist ..).map _).nodup h.vehSlots
    · exact h.catKeys

theorem allReach_park (s : Sys) (vid vt : String) (hr : AllReach s) :
    AllReach (park s vid vt).1 := by
  intro p hp
  obtain ⟨h1, h2, _, h4, h5, h6⟩ := park_fields s vid vt
  rw [h6] at hp
  rw [staticDistOpt_congr h4 h1 h2 h5]
  exact hr p hp

theorem allReach_leave (s : Sys) (vid : String) (hr : AllReach s) :
    AllReach (leave s vid).1 := by
  intro p hp
  obtain ⟨h1, h2, _, h4, h5, h6⟩ := leave_fields s vid
  rw [h6] at hp
  rw [staticDistOpt_congr h4 h1 h2 h5]
  exact hr p hp

theorem run_wf (s : Sys) (ops : List Op) (h : WfC3 s) (hr : AllReach s) :
    WfC3 (run s ops) ∧ AllReach (run s ops) := by
  induction ops generalizing s with
  | nil => exact ⟨h, hr⟩
  | cons op t ih =>
    have hw : WfC3 (runOp s op) := by
      cases op with
      | park vid vt => exact park_wf s vid vt h
      | leave vid => exact leave_wf s vid h hr
    have ha : AllReach (runOp s op) := by
      cases op with
      | park vid vt => exact allReach_park s vid vt hr
      | leave vid => exact allReach_leave s vid hr
    exact ih (runOp s op) hw ha

theorem mem_cellList {rows cols : Nat} {rc : Nat × Nat} :
    rc ∈ cellList rows cols ↔ rc.1 < rows ∧ rc.2 < cols := by
  obtain ⟨r, c⟩ := rc
  simp only [cellList, List.mem_flatMap, List.mem_map, List.mem_range]
  constructor
  · rintro ⟨a, ha, b, hb, he⟩
    obtain ⟨h1, h2⟩ := Prod.mk.injEq .. ▸ he
    exact ⟨h1 ▸ ha, h2 ▸ hb⟩
  · rintro ⟨h1, h2⟩
    exact ⟨r, h1, c, h2, rfl⟩

theorem cellList_pairwise (rows cols : Nat) :
    List.Pairwise (fun a b : Nat × Nat => a.1 * cols + a.2 < b.1 * cols + b.2)
      (cellList rows cols) := by
  induction rows with
  | zero => simp [cellList]
  | succ k ih =>
    rw [cellList, List.range_succ, List.flatMap_append]
    rw [List.pairwise_append]
    refine ⟨ih, ?_, ?_⟩
    · simp only [List.flatMap_cons, List.flatMap_nil, List.append_nil]
      rw [List.pairwise_map]
      refine List.Pairwise.imp ?_ (List.pairwise_lt_range cols)
      intro a b hab
      show k * cols + a < k * cols + b
      omega
    · intro a ha b hb
      obtain ⟨h1, h2⟩ := mem_cellList.mp (show a ∈ cellList k cols from ha)
      simp only [List.flatMap_cons, List.flatMap_nil, List.append_nil, List.mem_map,
        List.mem_range] at hb
      obtain ⟨c, _, hbe⟩ := hb
      have hb1 : b.1 = k := by rw [← hbe]
      calc a.1 * cols + a.2 < a.1 * cols + cols := by omega
        _ = (a.1 + 1) * cols := by ring
        _ ≤ k * cols := Nat.mul_le_mul_right cols h1
        _ ≤ b.1 * cols + b.2 := by rw [hb1]; omega

theorem mem_nodesOf {layout : List (List Char)} {cols : Nat} {n : NodeInfo} :
    n ∈ nodesOf layout cols ↔ ∃ r c, r < layout.length ∧ c < cols ∧
      charAt layout r c ≠ '.' ∧
      n = ⟨r * cols + c, typeOf (charAt layout r c), r, c⟩ := by
  constructor
  · intro h
    obtain ⟨rc, hrc, hf⟩ := List.mem_filterMap.mp h
    obtain ⟨hr, hc⟩ := mem_cellList.mp hrc
    by_cases hch : charAt layout rc.1 rc.2 = '.'
    · rw [if_pos hch] at hf
      exact absurd hf (by simp)
    · rw [if_neg hch] at hf
      exact ⟨rc.1, rc.2, hr, hc, hch, (Option.some.inj hf).symm⟩
  · rintro ⟨r, c, hr, hc, hch, hn⟩
    refine List.mem_filterMap.mpr ⟨(r, c), mem_cellList.mpr ⟨hr, hc⟩, ?_⟩
    rw [if_neg hch, hn]

theorem mem_statusOf {layout : List (List Char)} {cols : Nat} {p : Nat × Nat} :
    p ∈ statusOf layout cols ↔ ∃ r c, r < layout.length ∧ c < cols ∧
      (charAt layout r c = 'T' ∨ charAt layout r c = 'S') ∧ p = (r * cols + c, 0) := by
  constructor
  · intro h
    obtain ⟨rc, hrc, hf⟩ := List.mem_filterMap.mp h
    obtain ⟨hr, hc⟩ := mem_cellList.mp hrc
    by_cases hch : charAt layout rc.1 rc.2 = 'T' ∨ charAt layout rc.1 rc.2 = 'S'
    · rw [if_pos hch] at hf
      exact ⟨rc.1, rc.2, hr, hc, hch, (Option.some.inj hf).symm⟩
    · rw [if_neg hch] at hf
      exact absurd hf (by simp)
  · rintro ⟨r, c, hr, hc, hch, hp⟩
    refine List.mem_filterMap.mpr ⟨(r, c), mem_cellList.mpr ⟨hr, hc⟩, ?_⟩
    rw [if_pos hch, hp]

theorem mem_catsOf {layout : List (List Char)} {cols : Nat} {p : Nat × String} :
    p ∈ catsOf layout cols ↔ ∃ r c, r < layout.length ∧ c < cols ∧
      catFor (charAt layout r c) = some p.2 ∧ p.1 = r * cols + c := by
  constructor
  · intro h
    obtain ⟨rc, hrc, hf⟩ := List.mem_filterMap.mp h
    obtain ⟨hr, hc⟩ := mem_cellList.mp hrc
    rcases hcf : catFor (charAt layout rc.1 rc.2) with _ | v
    · rw [hcf] at hf
      exact absurd hf (by simp)
    · rw [hcf] at hf
      have hf2 : (rc.1 * cols + rc.2, v) = p := Option.some.inj hf
      refine ⟨rc.1, rc.2, hr, hc, ?_, ?_⟩
      · rw [hcf, ← hf2]
      · rw [← hf2]
  · rintro ⟨r, c, hr, hc, hcf, hp⟩
    refine List.mem_filterMap.mpr ⟨(r, c), mem_cellList.mpr ⟨hr, hc⟩, ?_⟩
    rw [hcf]
    show some (r * cols + c, p.2) = some p
    rw [← hp]

theorem nodesOf_ids_pairwise (layout : List (List Char)) (cols : Nat) :
    List.Pairwise (· < ·) ((nodesOf layout cols).map (fun n => n.id)) := by
  rw [List.pairwise_map, nodesOf, List.pairwise_filterMap]
  refine List.Pairwise.imp ?_ (cellList_pairwise layout.length cols)
  intro a b hab x hx y hy
  by_cases ha : charAt layout a.1 a.2 = '.'
  · rw [if_pos ha] at hx
    simp at hx
  by_cases hb : charAt layout b.1 b.2 = '.'
  · rw [if_pos hb] at hy
    simp at hy
  rw [if_neg ha] at hx
  rw [if_neg hb] at hy
  have hx' : x.id = a.1 * cols + a.2 := by
    cases hx
    rfl
  have hy' : y.id = b.1 * cols + b.2 := by
    cases hy
    rfl
  rw [hx', hy']
  exact hab

theorem statusOf_keys_pairwise (layout : List (List Char)) (cols : Nat) :
    List.Pairwise (· < ·) ((statusOf layout cols).map (fun p => p.1)) := by
  rw [List.pairwise_map, statusOf, List.pairwise_filterMap]
  refine List.Pairwise.imp ?_ (cellList_pairwise layout.length cols)
  intro a b hab x hx y hy
  by_cases ha : charAt layout a.1 a.2 = 'T' ∨ charAt layout a.1 a.2 = 'S'
  case neg =>
    rw [if_neg ha] at hx
    exact (Option.not_mem_none x hx).elim
  by_cases hb : charAt layout b.1 b.2 = 'T' ∨ charAt layout b.1 b.2 = 'S'
  case neg =>
    rw [if_neg hb] at hy
    exact (Option.not_mem_none y hy).elim
  rw [if_pos ha] at hx
  rw [if_pos hb] at hy
  have hx' : x.1 = a.1 * cols + a.2 := by
    cases hx
    rfl
  have hy' : y.1 = b.1 * cols + b.2 := by
    cases hy
    rfl
  rw [hx', hy']
  exact hab

theorem catsOf_keys_pairwise (layout : List (List Char)) (cols : Nat) :
    List.Pairwise (· < ·) ((catsOf layout cols).map (fun p => p.1)) := by
  rw [List.pairwise_map, catsOf, List.pairwise_filterMap]
  refine List.Pairwise.imp ?_ (cellList_pairwise layout.length cols)
  intro a b hab x hx y hy
  rcases hca : catFor (charAt layout a.1 a.2) with _ | va
  · rw [hca] at hx
    exact (Option.not_mem_none x hx).elim
  rcases hcb : catFor (charAt layout b.1 b.2) with _ | vb
  · rw [hcb] at hy
    exact (Option.not_mem_none y hy).elim
  rw [hca] at hx
  rw [hcb] at hy
  have hx2 : (a.1 * cols + a.2, va) = x := Option.some.inj hx
  have hy2 : (b.1 * cols + b.2, vb) = y := Option.some.inj hy
  rw [← hx2, ← hy2]
  exact hab

theorem pairwise_lt_nodup {l : List Nat} (h : List.Pairwise (· < ·) l) : l.Nodup :=
  h.imp (fun hab => Nat.ne_of_lt hab)

theorem nodesOf_ids_nodup (layout : List (List Char)) (cols : Nat) :
    ((nodesOf layout cols).map (fun n => n.id)).Nodup :=
  pairwise_lt_nodup (nodesOf_ids_pairwise layout cols)

theorem statusOf_keys_nodup (layout : List (List Char)) (cols : Nat) :
    ((statusOf layout cols).map (fun p => p.1)).Nodup :=
  pairwise_lt_nodup (statusOf_keys_pairwise layout cols)

theorem catsOf_keys_nodup (layout : List (List Char)) (cols : Nat) :
    ((catsOf layout cols).map (fun p => p.1)).Nodup :=
  pairwise_lt_nodup (catsOf_keys_pairwise layout cols)

theorem pqInsert_perm (x : Nat × Nat) (q : List (Nat × Nat)) : (pqInsert x q).Perm (x :: q) := by
  induction q with
  | nil => exact List.Perm.refl _
  | cons y t ih =>
    by_cases h : pairLe x y
    · rw [pqInsert, if_pos h]
    · rw [pqInsert, if_neg h]
      exact (ih.cons y).trans (List.Perm.swap x y t)

theorem countQ_eq_countP (q : List (Nat × Nat)) (i : Nat) :
    countQ q i = q.countP (fun p => p.2 == i) := by
  simp [countQ, List.countP_eq_length_filter]

theorem countQ_perm {q q' : List (Nat × Nat)} (h : q.Perm q') (i : Nat) :
    countQ q i = countQ q' i := by
  rw [countQ_eq_countP, countQ_eq_countP]
  exact h.countP_eq _

theorem buildQueues_perm (nodes : List NodeInfo) (cats : List (Nat × String)) (bf : Nat) :
    (buildQueues nodes cats bf).1.Perm (nodes.filterMap (qsel1 cats bf)) ∧
    (buildQueues nodes cats bf).2.Perm (nodes.filterMap (qsel2 cats bf)) := by
  suffices h : ∀ init : List (Nat × Nat) × List (Nat × Nat),
      (nodes.foldl (queueStep cats bf) init).1.Perm
        (init.1 ++ nodes.filterMap (qsel1 cats bf)) ∧
      (nodes.foldl (queueStep cats bf) init).2.Perm
        (init.2 ++ nodes.filterMap (qsel2 cats bf)) by
    simpa [buildQueues] using h ([], [])
  intro init
  induction nodes generalizing init with
  | nil => simp
  | cons n t ih =>
    rw [List.foldl_cons]
    by_cases hs : n.ntype = NType.slot
    · by_cases hc : lookupA cats n.id = some "2w"
      · have hstep : queueStep cats bf init n =
            (pqInsert (qdist bf n.id, n.id) init.1, init.2) := by
          simp [queueStep, hs, hc]
        rw [hstep]
        obtain ⟨ih1, ih2⟩ := ih (pqInsert (qdist bf n.id, n.id) init.1, init.2)
        constructor
        · refine ih1.trans ?_
          have hfm : (n :: t).filterMap (qsel1 cats bf) =
              (qdist bf n.id, n.id) :: t.filterMap (qsel1 cats bf) := by
            simp [List.filterMap_cons, qsel1, hs, hc]
          rw [hfm]
          refine (((pqInsert_perm ..).append_right _).trans ?_)
          exact List.perm_middle.symm
        · refine ih2.trans ?_
          have hfm : (n :: t).filterMap (qsel2 cats bf) = t.filterMap (qsel2 cats bf) := by
            simp [List.filterMap_cons, qsel2, hs, hc]
          rw [hfm]
      · have hstep : queueStep cats bf init n =
            (init.1, pqInsert (qdist bf n.id, n.id) init.2) := by
          simp [queueStep, hs, hc]
        rw [hstep]
        obtain ⟨ih1, ih2⟩ := ih (init.1, pqInsert (qdist bf n.id, n.id) init.2)
        constructor
        · refine ih1.trans ?_
          have hfm : (n :: t).filterMap (qsel1 cats bf) = t.filterMap (qsel1 cats bf) := by
            simp [List.filterMap_cons, qsel1, hs, hc]
          rw [hfm]
        · refine ih2.trans ?_
          have hfm : (n :: t).filterMap (qsel2 cats bf) =
              (qdist bf n.id, n.id) :: t.filterMap (qsel2 cats bf) := by
            simp [List.filterMap_cons, qsel2, hs, hc]
          rw [hfm]
          refine (((pqInsert_perm ..).append_right _).trans ?_)
          exact List.perm_middle.symm
    · have hstep : queueStep cats bf init n = init := by
        simp [queueStep, hs]
      rw [hstep]
      obtain ⟨ih1, ih2⟩ := ih init
      constructor
      · refine ih1.trans ?_
        have hfm : (n :: t).filterMap (qsel1 cats bf) = t.filterMap (qsel1 cats bf) := by
          simp [List.filterMap_cons, qsel1, hs]
        rw [hfm]
      · refine ih2.trans ?_
        have hfm : (n :: t).filterMap (qsel2 cats bf) = t.filterMap (qsel2 cats bf) := by
          simp [List.filterMap_cons, qsel2, hs]
        rw [hfm]

theorem countQ_filterMap_zero_of_ne {l : List NodeInfo} {f : NodeInfo → Option (Nat × Nat)}
    (hf : ∀ n e, f n = some e → e.2 = n.id) {i : Nat} (hz : ∀ n ∈ l, n.id ≠ i) :
    countQ (l.filterMap f) i = 0 := by
  induction l with
  | nil => rfl
  | cons n t ih =>
    rw [List.filterMap_cons]
    rcases hfn : f n with _ | e
    · exact ih (fun m hm => hz m (List.mem_cons_of_mem _ hm))
    · rw [countQ_cons]
      have he : e.2 = n.id := hf n e hfn
      have hne : e.2 ≠ i := by
        rw [he]
        exact hz n (List.mem_cons_self ..)
      rw [if_neg hne]
      simpa using ih (fun m hm => hz m (List.mem_cons_of_mem _ hm))

theorem countQ_filterMap_zero_of_none {l : List NodeInfo} {f : NodeInfo → Option (Nat × Nat)}
    (hf : ∀ n e, f n = some e → e.2 = n.id) {i : Nat}
    (hz : ∀ n ∈ l, n.id = i → f n = none) :
    countQ (l.filterMap f) i = 0 := by
  induction l with
  | nil => rfl
  | cons n t ih =>
    rw [List.filterMap_cons]
    rcases hfn : f n with _ | e
    · exact ih (fun m hm => hz m (List.mem_cons_of_mem _ hm))
    · rw [countQ_cons]
      have he : e.2 = n.id := hf n e hfn
      have hne : e.2 ≠ i := by
        rw [he]
        intro heq
        rw [hz n (List.mem_cons_self ..) heq] at hfn
        exact Option.noConfusion hfn
      rw [if_neg hne]
      simpa using ih (fun m hm => hz m (List.mem_cons_of_mem _ hm))

theorem countQ_filterMap_one {l : List NodeInfo} {f : NodeInfo → Option (Nat × Nat)}
    (hf : ∀ n e, f n = some e → e.2 = n.id) (hnd : (l.map (fun n => n.id)).Nodup)
    {n0 : NodeInfo} (hn0 : n0 ∈ l) {e0 : Nat × Nat} (he0 : f n0 = some e0) :
    countQ (l.filterMap f) n0.id = 1 := by
  induction l with
  | nil => simp at hn0
  | cons n t ih =>
    simp only [List.map_cons, List.nodup_cons] at hnd
    rw [List.filterMap_cons]
    rcases List.mem_cons.mp hn0 with heq | hmem
    · subst heq
      rw [he0, countQ_cons, if_pos (hf n0 e0 he0)]
      have hz : ∀ m ∈ t, m.id ≠ n0.id := by
        intro m hm hme
        exact hnd.1 (hme ▸ List.mem_map_of_mem (fun n => n.id) hm)
      rw [countQ_filterMap_zero_of_ne hf hz]
    · have hne : n.id ≠ n0.id := by
        intro heq
        exact hnd.1 (heq ▸ List.mem_map_of_mem (fun n => n.id) hmem)
      rcases hfn : f n with _ | e
      · exact ih hnd.2 hmem
      · rw [countQ_cons]
        have he : e.2 = n.id := hf n e hfn
        rw [if_neg (by rw [he]; exact hne)]
        simpa using ih hnd.2 hmem

theorem catFor_some {ch : Char} {v : String} (h : catFor ch = some v) :
    (ch = 'T' ∧ v = "2w") ∨ (ch = 'S' ∧ v = "4w") := by
  by_cases h1 : ch = 'T'
  · rw [catFor, if_pos h1] at h
    exact Or.inl ⟨h1, (Option.some.inj h).symm⟩
  · by_cases h2 : ch = 'S'
    · rw [catFor, if_neg h1, if_pos h2] at h
      exact Or.inr ⟨h2, (Option.some.inj h).symm⟩
    · rw [catFor, if_neg h1, if_neg h2] at h
      exact Option.noConfusion h

theorem typeOf_slot_char {ch : Char} (h : typeOf ch = NType.slot) : ch = 'T' ∨ ch = 'S' := by
  by_cases hts : ch = 'T' ∨ ch = 'S'
  · exact hts
  · rw [typeOf, if_neg hts] at h
    exact NType.noConfusion h

theorem typeOf_of_TS {ch : Char} (h : ch = 'T' ∨ ch = 'S') : typeOf ch = NType.slot := by
  rw [typeOf, if_pos h]

theorem TS_ne_dot {ch : Char} (h : ch = 'T' ∨ ch = 'S') : ch ≠ '.' := by
  rcases h with h | h <;> (rw [h]; decide)

theorem build_ok_elim {layout : List (List Char)} {s0 : Sys}
    (hb : build layout = Except.ok s0) : s0 = builtSys layout := by
  by_cases hc : (layout.any fun row => row.length < (layout.headD []).length) = true
  · rw [build, if_pos hc] at hb
    exact Except.noConfusion hb
  · rw [build, if_neg hc] at hb
    exact (Except.ok.inj hb).symm

theorem qsel1_id (cats : List (Nat × String)) (bf : Nat) :
    ∀ n e, qsel1 cats bf n = some e → e.2 = n.id := by
  intro n e h
  rw [qsel1] at h
  by_cases hc : n.ntype = NType.slot ∧ lookupA cats n.id = some "2w"
  · rw [if_pos hc] at h
    rw [← Option.some.inj h]
  · rw [if_neg hc] at h
    exact Option.noConfusion h

theorem qsel2_id (cats : List (Nat × String)) (bf : Nat) :
    ∀ n e, qsel2 cats bf n = some e → e.2 = n.id := by
  intro n e h
  rw [qsel2] at h
  by_cases hc : n.ntype = NType.slot ∧ ¬lookupA cats n.id = some "2w"
  · rw [if_pos hc] at h
    rw [← Option.some.inj h]
  · rw [if_neg hc] at h
    exact Option.noConfusion h

theorem status_zero_of_cat {layout : List (List Char)} {cols : Nat} {i : Nat} {cv : String}
    (h : (i, cv) ∈ catsOf layout cols) : lookupA (statusOf layout cols) i = some 0 := by
  obtain ⟨r, c, hr, hc, hcf, hi⟩ := mem_catsOf.mp h
  have hts : charAt layout r c = 'T' ∨ charAt layout r c = 'S' := by
    rcases catFor_some hcf with ⟨h1, _⟩ | ⟨h1, _⟩
    · exact Or.inl h1
    · exact Or.inr h1
  have hmem : ((i, 0) : Nat × Nat) ∈ statusOf layout cols := by
    refine mem_statusOf.mpr ⟨r, c, hr, hc, hts, ?_⟩
    rw [show ((i, cv) : Nat × String).1 = i from rfl] at hi
    rw [hi]
  exact mem_lookupA_of_nodup (statusOf_keys_nodup layout cols) hmem

theorem buildQueues_q2_fact (layout : List (List Char)) (cols bf : Nat) (p : Nat × Nat)
    (hp : p ∈ (buildQueues (nodesOf layout cols) (catsOf layout cols) bf).1) :
    lookupA (catsOf layout cols) p.2 = some "2w" ∧
    lookupA (statusOf layout cols) p.2 = some 0 := by
  have hp' := ((buildQueues_perm (nodesOf layout cols) (catsOf layout cols) bf).1.mem_iff).mp hp
  obtain ⟨n, _, hf⟩ := List.mem_filterMap.mp hp'
  rw [qsel1] at hf
  by_cases hcnd : n.ntype = NType.slot ∧ lookupA (catsOf layout cols) n.id = some "2w"
  · rw [if_pos hcnd] at hf
    have hp2 : p.2 = n.id := by rw [← Option.some.inj hf]
    rw [hp2]
    exact ⟨hcnd.2, status_zero_of_cat (lookupA_mem hcnd.2)⟩
  · rw [if_neg hcnd] at hf
    exact Option.noConfusion hf

theorem buildQueues_q4_fact (layout : List (List Char)) (cols bf : Nat) (p : Nat × Nat)
    (hp : p ∈ (buildQueues (nodesOf layout cols) (catsOf layout cols) bf).2) :
    lookupA (catsOf layout cols) p.2 = some "4w" ∧
    lookupA (statusOf layout cols) p.2 = some 0 := by
  have hp' := ((buildQueues_perm (nodesOf layout cols) (catsOf layout cols) bf).2.mem_iff).mp hp
  obtain ⟨n, hn, hf⟩ := List.mem_filterMap.mp hp'
  rw [qsel2] at hf
  by_cases hcnd : n.ntype = NType.slot ∧ ¬lookupA (catsOf layout cols) n.id = some "2w"
  · rw [if_pos hcnd] at hf
    have hp2 : p.2 = n.id := by rw [← Option.some.inj hf]
    obtain ⟨r, c, hr, hc, hch, hne⟩ := mem_nodesOf.mp hn
    have hslot : typeOf (charAt layout r c) = NType.slot := by
      rw [← show n.ntype = typeOf (charAt layout r c) by rw [hne]]
      exact hcnd.1
    have hnid : n.id = r * cols + c := by rw [hne]
    rcases typeOf_slot_char hslot with hT | hS
    · have hmemcat : (n.id, "2w") ∈ catsOf layout cols := by
        refine mem_catsOf.mpr ⟨r, c, hr, hc, ?_, hnid⟩
        rw [hT]
        rfl
      have := mem_lookupA_of_nodup (catsOf_keys_nodup layout cols) hmemcat
      exact absurd this hcnd.2
    · have hmemcat : (n.id, "4w") ∈ catsOf layout cols := by
        refine mem_catsOf.mpr ⟨r, c, hr, hc, ?_, hnid⟩
        rw [hS]
        rfl
      have hlook := mem_lookupA_of_nodup (catsOf_keys_nodup layout cols) hmemcat
      rw [hp2]
      exact ⟨hlook, status_zero_of_cat hmemcat⟩
  · rw [if_neg hcnd] at hf
    exact Option.noConfusion hf

theorem buildQueues_inv_fact (layout : List (List Char)) (cols bf : Nat) (p : Nat × String)
    (hp : p ∈ catsOf layout cols) :
    lookupA (statusOf layout cols) p.1 = some 0 ∧
    countQ (if p.2 = "2w"
      then (buildQueues (nodesOf layout cols) (catsOf layout cols) bf).1
      else (buildQueues (nodesOf layout cols) (catsOf layout cols) bf).2) p.1 = 1 ∧
    countQ (if p.2 = "2w"
      then (buildQueues (nodesOf layout cols) (catsOf layout cols) bf).2
      else (buildQueues (nodesOf layout cols) (catsOf layout cols) bf).1) p.1 = 0 := by
  obtain ⟨r, c, hr, hc, hcf, hi⟩ := mem_catsOf.mp hp
  have hts : charAt layout r c = 'T' ∨ charAt layout r c = 'S' := by
    rcases catFor_some hcf with ⟨h1, _⟩ | ⟨h1, _⟩
    · exact Or.inl h1
    · exact Or.inr h1
  have hnode : (⟨r * cols + c, typeOf (charAt layout r c), r, c⟩ : NodeInfo) ∈
      nodesOf layout cols :=
    mem_nodesOf.mpr ⟨r, c, hr, hc, TS_ne_dot hts, rfl⟩
  have hpeta : (p.1, p.2) ∈ catsOf layout cols := by simpa using hp
  have hcatlook : lookupA (catsOf layout cols) p.1 = some p.2 :=
    mem_lookupA_of_nodup (catsOf_keys_nodup layout cols) hpeta
  have hq := buildQueues_perm (nodesOf layout cols) (catsOf layout cols) bf
  have hcnt1 := countQ_perm hq.1 p.1
  have hcnt2 := countQ_perm hq.2 p.1
  refine ⟨status_zero_of_cat hpeta, ?_, ?_⟩ <;>
    rcases catFor_some hcf with ⟨hT, hv⟩ | ⟨hS, hv⟩
  · rw [if_pos hv, hcnt1]
    have hsome : qsel1 (catsOf layout cols) bf
        ⟨r * cols + c, typeOf (charAt layout r c), r, c⟩ =
        some (qdist bf (r * cols + c), r * cols + c) := by
      rw [qsel1, if_pos ⟨typeOf_of_TS hts, by rw [show (⟨r * cols + c,
        typeOf (charAt layout r c), r, c⟩ : NodeInfo).id = p.1 from hi.symm]; rw [hcatlook, hv]⟩]
    have := countQ_filterMap_one (qsel1_id (catsOf layout cols) bf)
      (nodesOf_ids_nodup layout cols) hnode hsome
    rw [show (⟨r * cols + c, typeOf (charAt layout r c), r, c⟩ : NodeInfo).id =
      r * cols + c from rfl] at this
    rw [hi]
    exact this
  · rw [if_neg (by rw [hv]; decide), hcnt2]
    have hsome : qsel2 (catsOf layout cols) bf
        ⟨r * cols + c, typeOf (charAt layout r c), r, c⟩ =
        some (qdist bf (r * cols + c), r * cols + c) := by
      rw [qsel2, if_pos ⟨typeOf_of_TS hts, by
        rw [show (⟨r * cols + c, typeOf (charAt layout r c), r, c⟩ : NodeInfo).id =
          p.1 from hi.symm]
        rw [hcatlook, hv]
        decide⟩]
    have := countQ_filterMap_one (qsel2_id (catsOf layout cols) bf)
      (nodesOf_ids_nodup layout cols) hnode hsome
    rw [show (⟨r * cols + c, typeOf (charAt layout r c), r, c⟩ : NodeInfo).id =
      r * cols + c from rfl] at this
    rw [hi]
    exact this
  · rw [if_pos hv, hcnt2]
    refine countQ_filterMap_zero_of_none (qsel2_id (catsOf layout cols) bf) ?_
    intro n hn hni
    rw [qsel2, if_neg]
    intro ⟨_, hnot⟩
    rw [hni, hcatlook, hv] at hnot
    exact hnot rfl
  · rw [if_neg (by rw [hv]; decide), hcnt1]
    refine countQ_filterMap_zero_of_none (qsel1_id (catsOf layout cols) bf) ?_
    intro n hn hni
    rw [qsel1, if_neg]
    intro ⟨_, hl⟩
    rw [hni, hcatlook] at hl
    rw [hv] at hl
    exact absurd (Option.some.inj hl) (by decide)

theorem build_wf {layout : List (List Char)} {s0 : Sys} (hb : build layout = Except.ok s0) :
    WfC3 s0 := by
  have hs0 := build_ok_elim hb
  subst hs0
  refine ⟨?_, ?_, ?_, ?_, ?_, ?_, ?_⟩
  · intro p hp
    exact buildQueues_q2_fact layout _ _ p hp
  · intro p hp
    exact buildQueues_q4_fact layout _ _ p hp
  · intro p hp
    exact Or.inl (buildQueues_inv_fact layout _ _ p hp)
  · intro x hx
    exact absurd hx (List.not_mem_nil x)
  · exact List.nodup_nil
  · exact List.nodup_nil
  · exact catsOf_keys_nodup layout _

/-- C3 (amended): on a built layout in which every slot is reachable from the
entrance (each slot's static distance is defined), after any sequence of park
and leave operations every slot id is either Free and in exactly the queue of
its fixed class, or Occupied and in no queue.  (The original unconditional
claim fails: the counterexample runs park-then-leave against an unreachable
slot, whose leave aborts between the occupancy reset and the queue
reinsertion, leaving the slot Free and in no queue.) -/
theorem C3_queue_occupancy_invariant_when_all_slots_reachable
    (layout : List (List Char)) (s0 : Sys) (ops : List Op)
    (hb : build layout = Except.ok s0) (hr : AllReach s0) :
    SlotQueueInv (run s0 ops) :=
  (run_wf s0 ops (build_wf hb) hr).1.inv

/-- Witness for C3: a fully reachable two-class layout run through parks,
double parks, leaves of both classes, a leave of an unknown vehicle and a
class exhaustion. -/
theorem C3_witness : SlotQueueInv (run c3wSys c3wOps) :=
  C3_queue_occupancy_invariant_when_all_slots_reachable c3wLayout c3wSys c3wOps
    (by decide) (by decide)

/-- C3 counterexample: on the disconnected layout, parking onto the
unreachable slot fails `NoPathFound` after popping the queue and flagging the
slot Occupied, and the subsequent leave aborts (its static-distance
recomputation raises) after resetting the flag but before the queue
reinsertion — slot 2 ends up Free yet in neither queue, violating the
bidirectional invariant. -/
theorem C3_counterexample_unreachable_slot_breaks_invariant :
    ¬SlotQueueInv (run c1Sys c3cOps) ∧
    lookupA (run c1Sys c3cOps).slotStatus 2 = some 0 ∧
    (run c1Sys c3cOps).slots2w = [] ∧
    (run c1Sys c3cOps).slots4w = [] ∧
    (2, "4w") ∈ (run c1Sys c3cOps).slotCat := by
  decide

theorem build_ok_of_rows (layout : List (List Char))
    (hlen : ∀ row ∈ layout, (layout.headD []).length ≤ row.length) :
    build layout = Except.ok (builtSys layout) := by
  have hany : (layout.any fun row => row.length < (layout.headD []).length) = false := by
    rw [List.any_eq_false]
    intro row hrow
    simpa using Nat.not_lt.mpr (hlen row hrow)
  rw [build, if_neg (by rw [hany]; exact Bool.false_ne_true)]

/-- C2 (amended): `_build_graph` raises no `ConfigurationError` — no such
check exists in the source.  Every layout whose rows are at least as long as
the first row builds successfully, and a character outside the recognized
alphabet is materialized as a Roadway node instead of being rejected.  (A row
shorter than the first crashes with an untyped `IndexError` partway through;
longer rows are silently truncated to the first row's length.) -/
theorem C2_no_configuration_error_unrecognized_becomes_road
    (layout : List (List Char))
    (hlen : ∀ row ∈ layout, (layout.headD []).length ≤ row.length) :
    build layout = Except.ok (builtSys layout) ∧
    ∀ r c, r < layout.length → c < (layout.headD []).length →
      charAt layout r c ∉ (['.', 'T', 'S', 'E', 'R'] : List Char) →
      (⟨r * (layout.headD []).length + c, NType.road, r, c⟩ : NodeInfo) ∈
        (builtSys layout).nodes := by
  refine ⟨build_ok_of_rows layout hlen, ?_⟩
  intro r c hr hc hch
  have hndot : charAt layout r c ≠ '.' := fun h => hch (by rw [h]; simp)
  have hroad : typeOf (charAt layout r c) = NType.road := by
    rw [typeOf, if_neg]
    intro h
    rcases h with h | h
    · exact hch (by rw [h]; simp)
    · exact hch (by rw [h]; simp)
  have hmem : (⟨r * (layout.headD []).length + c, typeOf (charAt layout r c), r, c⟩ :
      NodeInfo) ∈ nodesOf layout (layout.headD []).length :=
    mem_nodesOf.mpr ⟨r, c, hr, hc, hndot, rfl⟩
  rw [hroad] at hmem
  exact hmem

/-- C2 counterexample: the layout `["X"]` contains only an unrecognized
character, yet the build succeeds and materializes a road node — no
`ConfigurationError` and a graph is built. -/
theorem C2_counterexample_unrecognized_builds :
    build c2Layout = Except.ok (builtSys c2Layout) ∧
    (buildOk c2Layout).nodes = [⟨0, NType.road, 0, 0⟩] ∧
    (buildOk c2Layout).slotCat = [] := by
  decide

/-- Witness for C2 on the layout `["EX"]`. -/
theorem C2_witness :
    build c2wLayout = Except.ok (builtSys c2wLayout) ∧
    (⟨1, NType.road, 0, 1⟩ : NodeInfo) ∈ (builtSys c2wLayout).nodes :=
  ⟨(C2_no_configuration_error_unrecognized_becomes_road c2wLayout (by decide)).1,
   (C2_no_configuration_error_unrecognized_becomes_road c2wLayout (by decide)).2 0 1
     (by decide) (by decide) (by decide)⟩

/-- C7 counterexample: on `c7cSys` the two-wheeler class is exhausted and the
four-wheeler queue holds a free slot, yet the four-wheeler park raises
`NoPathFound` instead of succeeding, because that free slot is unreachable. -/
theorem C7_counterexample_free_unreachable_slot :
    (park c7cSys "b" "2w").2 = Except.error (PErr.lotFull "2-Wheeler") ∧
    c7cSys.slots4w = [(9999, 3)] ∧
    lookupA c7cSys.slotStatus 3 = some 0 ∧
    (park c7cSys "b" "4w").2 = Except.error PErr.noPathFound := by
  decide

theorem dirEdges_mem {es : List ((Nat × Nat) × Weight)} {a b : Nat} {w : Weight}
    (h : lookupEdge es a b = some w) : (a, b, w) ∈ dirEdges es := by
  have hmem : (ekey a b, w) ∈ es := lookupA_mem h
  rw [dirEdges]
  refine List.mem_flatMap.mpr ⟨(ekey a b, w), hmem, ?_⟩
  by_cases hab : a ≤ b <;> simp [ekey, hab]

theorem isFixB_src {W : WFun} {des : List (Nat × Nat × Weight)} {d src : Nat}
    (h : isFixB W des d src = true) : getL d src = 0 := by
  rw [isFixB, Bool.and_eq_true] at h
  simpa using h.1

theorem isFixB_edge {W : WFun} {des : List (Nat × Nat × Weight)} {d src : Nat}
    (h : isFixB W des d src = true) {a b : Nat} {w : Weight}
    (he : (a, b, w) ∈ des) : getL d b ≤ getL d a + W a b w := by
  rw [isFixB, Bool.and_eq_true, List.all_eq_true] at h
  have h2 := h.2 (a, b, w) he
  simpa [Nat.ble_eq] using h2

theorem fix_chain_bound {W : WFun} {es : List ((Nat × Nat) × Weight)} {d src : Nat}
    (hfix : isFixB W (dirEdges es) d src = true) :
    ∀ (t : List Nat) (a : Nat), chainOk es a t = true →
      getL d (t.getLastD a) ≤ getL d a + pathCostFrom W es a t := by
  intro t
  induction t with
  | nil =>
    intro a _
    simp [pathCostFrom]
  | cons b t' ih =>
    intro a hc
    rw [chainOk, Bool.and_eq_true] at hc
    obtain ⟨h1, h2⟩ := hc
    rcases hw : lookupEdge es a b with _ | w
    · rw [hw] at h1
      simp at h1
    have hedge := isFixB_edge hfix (dirEdges_mem hw)
    have hih := ih b h2
    rw [List.getLastD_cons]
    have hcost : pathCostFrom W es a (b :: t') = W a b w + pathCostFrom W es b t' := by
      rw [pathCostFrom, hw]
    rw [hcost]
    omega

theorem validPathB_elim {es : List ((Nat × Nat) × Weight)} {p : List Nat} {src dst : Nat}
    (h : validPathB es p src dst = true) :
    ∃ t, p = src :: t ∧ chainOk es src t = true ∧ t.getLastD src = dst := by
  cases p with
  | nil => simp [validPathB] at h
  | cons a t =>
    rw [validPathB, Bool.and_eq_true, Bool.and_eq_true] at h
    obtain ⟨⟨h1, h2⟩, h3⟩ := h
    have ha : a = src := by simpa using h1
    subst ha
    exact ⟨t, rfl, h2, by simpa using h3⟩

theorem shortestPathChecked_min {W : WFun} {es : List ((Nat × Nat) × Weight)}
    {n src dst : Nat} {p : List Nat}
    (h : shortestPathChecked W es n src dst = some p) :
    validPathB es p src dst = true ∧
    ∀ q, validPathB es q src dst = true → pathCostB W es p ≤ pathCostB W es q := by
  simp only [shortestPathChecked] at h
  split at h
  case isFalse => exact Option.noConfusion h
  case isTrue hcond =>
  split at h
  case h_2 => exact Option.noConfusion h
  case h_1 p0 hrec =>
  split at h
  case isFalse => exact Option.noConfusion h
  case isTrue hval =>
  have hp0 : p0 = p := Option.some.inj h
  subst hp0
  rw [Bool.and_eq_true] at hcond hval
  have hvp : validPathB es p0 src dst = true := hval.1
  have hcostp : pathCostB W es p0 =
      getL (bfLoop W (dirEdges es) (dirEdges es).reverse n (setL (sentFill n) src 0)) dst := by
    simpa using hval.2
  refine ⟨hvp, ?_⟩
  intro q hq
  obtain ⟨t, hqe, hch, hlast⟩ := validPathB_elim hq
  have hb := fix_chain_bound hcond.1 t src hch
  rw [hlast, isFixB_src hcond.1] at hb
  rw [hcostp, hqe]
  simpa [pathCostB] using hb

theorem pathCostFrom_dynW_eq {st : List (Nat × Nat)} {tgt : Nat}
    {es : List ((Nat × Nat) × Weight)} :
    ∀ (t : List Nat) (a : Nat),
      (lookupA st a = some 1 → a = tgt) →
      (∀ x ∈ t, lookupA st x = some 1 → x = tgt) →
      pathCostFrom (dynW st tgt) es a t = pathCostFrom staticW es a t := by
  intro t
  induction t with
  | nil =>
    intro a _ _
    rfl
  | cons b t' ih =>
    intro a ha hall
    have hb : lookupA st b = some 1 → b = tgt := hall b (List.mem_cons_self ..)
    have hWab : ∀ w, dynW st tgt a b w = staticW a b w := by
      intro w
      rw [dynW, if_neg, if_neg]
      · rfl
      · rintro ⟨hb1, hb2⟩
        exact hb1 (hb hb2)
      · rintro ⟨ha1, ha2⟩
        exact ha1 (ha ha2)
    rw [pathCostFrom, pathCostFrom]
    rcases hlu : lookupEdge es a b with _ | w
    · show SENT + pathCostFrom (dynW st tgt) es b t' = SENT + pathCostFrom staticW es b t'
      rw [ih b hb (fun x hx => hall x (List.mem_cons_of_mem _ hx))]
    · show dynW st tgt a b w + pathCostFrom (dynW st tgt) es b t' =
        staticW a b w + pathCostFrom staticW es b t'
      rw [hWab w, ih b hb (fun x hx => hall x (List.mem_cons_of_mem _ hx))]

/-- C5 (amended): the path a successful park returns is a minimum-cost path
under the dynamic weights, so it can contain a Slot node other than the
destination only when every all-roadway (occupied-cell-avoiding) detour is at
least as expensive under the weighting; a sufficiently long roadway detour
legitimately loses to a 50+100 cut through a foreign slot.  (The original
claim — no foreign slot unless NO all-roadway detour exists — fails on the
counterexample below.)  `q` ranges over static-graph entrance-to-slot paths
that touch no occupied cell other than the destination; its static cost is
bounded below by the cost of the returned path. -/
theorem C5_returned_path_is_min_cost
    (s s1 : Sys) (vid vt : String) (res : ParkRes) (q : List Nat)
    (hpk : park s vid vt = (s1, Except.ok res))
    (hq : validPathB s.edges q s.entry res.slotId = true)
    (hfree : ∀ x ∈ q, lookupA s1.slotStatus x = some 1 → x = res.slotId) :
    pathCostB (dynW s1.slotStatus res.slotId) s.edges res.path ≤
      pathCostB staticW s.edges q := by
  rcases hv : lookupA s.vehicleMap vid with _ | v
  case some =>
    rw [show park s vid vt = (s, Except.error PErr.alreadyParked) by simp [park, hv]] at hpk
    simp at hpk
  case none =>
  rcases hqq : (if vt = "2w" then s.slots2w else s.slots4w) with _ | ⟨⟨d0, i⟩, rest⟩
  · rw [show park s vid vt =
        (s, Except.error (PErr.lotFull (if vt = "2w" then "2-Wheeler" else "4-Wheeler"))) by
      simp [park, hv, hqq]] at hpk
    simp at hpk
  rcases hp : parkPath (parkMutate s vid vt i rest) i with _ | p
  · rw [show park s vid vt = (parkMutate s vid vt i rest, Except.error PErr.noPathFound) by
      simp [park, hv, hqq, hp]] at hpk
    simp at hpk
  rw [show park s vid vt = (parkMutate s vid vt i rest, Except.ok ⟨i, vt, p⟩) by
    simp [park, hv, hqq, hp]] at hpk
  have hs1 : parkMutate s vid vt i rest = s1 := congrArg Prod.fst hpk
  have hres : res = ⟨i, vt, p⟩ := (Except.ok.inj (congrArg Prod.snd hpk)).symm
  subst hs1
  subst hres
  have hmin := shortestPathChecked_min hp
  have hle := hmin.2 q hq
  refine le_trans hle ?_
  obtain ⟨t, hqe, _, _⟩ := validPathB_elim hq
  have ha : lookupA (parkMutate s vid vt i rest).slotStatus s.entry = some 1 → s.entry = i :=
    fun hx => hfree s.entry (by rw [hqe]; exact List.mem_cons_self ..) hx
  have hb2 : ∀ x ∈ t, lookupA (parkMutate s vid vt i rest).slotStatus x = some 1 → x = i :=
    fun x hx hx1 => hfree x (by rw [hqe]; exact List.mem_cons_of_mem _ hx) hx1
  rw [hqe]
  show pathCostFrom (dynW (parkMutate s vid vt i rest).slotStatus i) s.edges s.entry t ≤
      pathCostFrom staticW s.edges s.entry t
  rw [pathCostFrom_dynW_eq t s.entry ha hb2]

/-- Witness for C5: on the tiny layout `["ERS"]` the returned path `[0,1,2]`
is road-only and minimal. -/
theorem C5_witness :
    (park c5wSys "a" "4w").2 = Except.ok ⟨2, "4w", [0, 1, 2]⟩ ∧
    pathCostB (dynW (park c5wSys "a" "4w").1.slotStatus 2) c5wSys.edges [0, 1, 2] ≤
      pathCostB staticW c5wSys.edges [0, 1, 2] :=
  ⟨by decide,
   C5_returned_path_is_min_cost c5wSys (park c5wSys "a" "4w").1 "a" "4w"
     ⟨2, "4w", [0, 1, 2]⟩ [0, 1, 2] (by decide) (by decide) (by decide)⟩

set_option maxRecDepth 80000 in
set_option maxHeartbeats 16000000 in
/-- C5 counterexample: on `c5Layout` the four-wheeler park allocates slot 106
and returns the path `[0, 53, 106]`, which passes through the foreign
two-wheeler slot 53, even though `c5q` is a valid all-roadway
entrance-to-106 detour (of static cost 155, versus 150 through the slot) —
refuting the claim that a foreign slot appears only when no all-roadway
detour exists. -/
theorem C5_counterexample_slot_shortcut_beats_long_detour : c5check = true := by
  decide

theorem weightRule_symm (t1 t2 : NType) : weightRule t1 t2 = weightRule t2 t1 := by
  cases t1 <;> cases t2 <;> rfl

theorem weightRule_eq_claimWeight (t1 t2 : NType) : weightRule t1 t2 = claimWeight t1 t2 := by
  cases t1 <;> cases t2 <;> rfl

theorem typeAt_of_mem {layout : List (List Char)} {cols : Nat} {n : NodeInfo}
    (h : n ∈ nodesOf layout cols) : typeAt layout cols n.id = n.ntype := by
  obtain ⟨r, c, hr, hc, hch, hne⟩ := mem_nodesOf.mp h
  subst hne
  have hcols : 0 < cols := Nat.lt_of_le_of_lt (Nat.zero_le c) hc
  show typeOf (charAt layout ((r * cols + c) / cols) ((r * cols + c) % cols)) =
    typeOf (charAt layout r c)
  have hdiv : (r * cols + c) / cols = r := by
    rw [Nat.mul_comm r cols, Nat.mul_add_div hcols, Nat.div_eq_of_lt hc]
    omega
  have hmod : (r * cols + c) % cols = c := by
    rw [Nat.mul_comm r cols, Nat.mul_add_mod, Nat.mod_eq_of_lt hc]
  rw [hdiv, hmod]

theorem wKey_write {layout : List (List Char)} {cols : Nat} {a b : NodeInfo}
    (ha : a ∈ nodesOf layout cols) (hb : b ∈ nodesOf layout cols) :
    wKey layout cols (ekey a.id b.id) = weightRule a.ntype b.ntype := by
  have hta := typeAt_of_mem ha
  have htb := typeAt_of_mem hb
  rw [wKey, ekey]
  by_cases hab : a.id ≤ b.id
  · rw [if_pos hab]
    show weightRule (typeAt layout cols a.id) (typeAt layout cols b.id) = _
    rw [hta, htb]
  · rw [if_neg hab]
    show weightRule (typeAt layout cols b.id) (typeAt layout cols a.id) = _
    rw [hta, htb, weightRule_symm]

theorem lookupA_setEdge (es : List ((Nat × Nat) × Weight)) (u v : Nat) (w : Weight)
    (k : Nat × Nat) :
    lookupA (setEdge es u v w) k = if ekey u v = k then some w else lookupA es k := by
  induction es with
  | nil => rfl
  | cons p t ih =>
    obtain ⟨k0, w0⟩ := p
    by_cases hk : k0 = ekey u v
    · subst hk
      show lookupA ((if ekey u v = ekey u v then (ekey u v, w) :: t
        else (ekey u v, w0) :: setEdge t u v w)) k = _
      rw [if_pos rfl]
      by_cases hkk : ekey u v = k
      · rw [lookupA, if_pos hkk, if_pos hkk]
      · rw [lookupA, if_neg hkk, if_neg hkk, lookupA, if_neg hkk]
    · show lookupA ((if k0 = ekey u v then (ekey u v, w) :: t
        else (k0, w0) :: setEdge t u v w)) k = _
      rw [if_neg hk]
      by_cases hk0 : k0 = k
      · subst hk0
        have hne : ¬ekey u v = k0 := fun h => hk h.symm
        rw [lookupA, if_pos rfl, if_neg hne, lookupA, if_pos rfl]
      · rw [lookupA, if_neg hk0, ih]
        by_cases hkk : ekey u v = k
        · rw [if_pos hkk, if_pos hkk]
        · rw [if_neg hkk, if_neg hkk, lookupA, if_neg hk0]

theorem setEdge_keys_mem {es : List ((Nat × Nat) × Weight)} {u v : Nat} {w : Weight}
    {k : Nat × Nat} (h : k ∈ (setEdge es u v w).map (fun kw => kw.1)) :
    k ∈ es.map (fun kw => kw.1) ∨ k = ekey u v := by
  induction es with
  | nil =>
    simp [setEdge] at h
    exact Or.inr h
  | cons p t ih =>
    obtain ⟨k0, w0⟩ := p
    by_cases hk : k0 = ekey u v
    · rw [show setEdge ((k0, w0) :: t) u v w = (ekey u v, w) :: t by
        rw [setEdge, if_pos hk]] at h
      simp only [List.map_cons] at h
      rcases List.mem_cons.mp h with h1 | h1
      · exact Or.inr h1
      · exact Or.inl (List.mem_cons_of_mem _ h1)
    · rw [show setEdge ((k0, w0) :: t) u v w = (k0, w0) :: setEdge t u v w by
        rw [setEdge, if_neg hk]] at h
      simp only [List.map_cons] at h
      rcases List.mem_cons.mp h with h1 | h1
      · exact Or.inl (by simp [h1])
      · rcases ih h1 with h2 | h2
        · exact Or.inl (List.mem_cons_of_mem _ h2)
        · exact Or.inr h2

theorem setEdge_keys_nodup {es : List ((Nat × Nat) × Weight)} (u v : Nat) (w : Weight)
    (h : (es.map (fun kw => kw.1)).Nodup) :
    ((setEdge es u v w).map (fun kw => kw.1)).Nodup := by
  induction es with
  | nil => simp [setEdge]
  | cons p t ih =>
    obtain ⟨k0, w0⟩ := p
    simp only [List.map_cons, List.nodup_cons] at h
    by_cases hk : k0 = ekey u v
    · rw [show setEdge ((k0, w0) :: t) u v w = (ekey u v, w) :: t by rw [setEdge, if_pos hk]]
      simp only [List.map_cons, List.nodup_cons]
      exact ⟨hk ▸ h.1, h.2⟩
    · rw [show setEdge ((k0, w0) :: t) u v w = (k0, w0) :: setEdge t u v w by
        rw [setEdge, if_neg hk]]
      simp only [List.map_cons, List.nodup_cons]
      refine ⟨?_, ih h.2⟩
      intro hmem
      rcases setEdge_keys_mem hmem with h1 | h1
      · exact h.1 h1
      · exact hk h1

theorem cellNode_mem {layout : List (List Char)} {cols r c : Nat} {v : NodeInfo}
    (h : cellNode layout cols r c = some v) : v ∈ nodesOf layout cols := by
  rw [cellNode] at h
  by_cases hin : r < layout.length ∧ c < cols
  · rw [if_pos hin] at h
    by_cases hch : charAt layout r c = '.'
    · rw [if_pos hch] at h
      exact Option.noConfusion h
    · rw [if_neg hch] at h
      exact mem_nodesOf.mpr ⟨r, c, hin.1, hin.2, hch, (Option.some.inj h).symm⟩
  · rw [if_neg hin] at h
    exact Option.noConfusion h

theorem cellNode_of_mem {layout : List (List Char)} {cols : Nat} {n : NodeInfo}
    (h : n ∈ nodesOf layout cols) : cellNode layout cols n.r n.c = some n := by
  obtain ⟨r, c, hr, hc, hch, hne⟩ := mem_nodesOf.mp h
  subst hne
  show cellNode layout cols r c = _
  rw [cellNode, if_pos ⟨hr, hc⟩, if_neg hch]

theorem setEdge_inv {layout : List (List Char)} {cols : Nat}
    {es : List ((Nat × Nat) × Weight)} {a b : NodeInfo}
    (ha : a ∈ nodesOf layout cols) (hb : b ∈ nodesOf layout cols)
    (h : EdgesInv layout cols es) :
    EdgesInv layout cols (setEdge es a.id b.id (weightRule a.ntype b.ntype)) := by
  refine ⟨?_, setEdge_keys_nodup _ _ _ h.2⟩
  intro k
  rw [lookupA_setEdge]
  by_cases hk : ekey a.id b.id = k
  · rw [if_pos hk]
    refine Or.inr ?_
    rw [← hk, wKey_write ha hb]
  · rw [if_neg hk]
    exact h.1 k

theorem edgeFold_inv (layout : List (List Char)) (cols : Nat) (u : NodeInfo)
    (hu : u ∈ nodesOf layout cols) :
    ∀ (l : List (Nat × Nat)) (es : List ((Nat × Nat) × Weight)),
      EdgesInv layout cols es →
      EdgesInv layout cols (l.foldl (fun es rc =>
        match cellNode layout cols rc.1 rc.2 with
        | some v => setEdge es u.id v.id (weightRule u.ntype v.ntype)
        | none => es) es) := by
  intro l
  induction l with
  | nil => exact fun es h => h
  | cons rc t ih =>
    intro es h
    rw [List.foldl_cons]
    rcases hcn : cellNode layout cols rc.1 rc.2 with _ | v
    · simp only [hcn]
      exact ih es h
    · simp only [hcn]
      exact ih _ (setEdge_inv hu (cellNode_mem hcn) h)

theorem edgesOf_inv (layout : List (List Char)) (cols : Nat) :
    EdgesInv layout cols (edgesOf layout cols (nodesOf layout cols)) := by
  rw [edgesOf]
  have hbase : EdgesInv layout cols [] := ⟨fun k => Or.inl rfl, List.nodup_nil⟩
  have hgen : ∀ (l : List NodeInfo), (∀ n ∈ l, n ∈ nodesOf layout cols) →
      ∀ es, EdgesInv layout cols es →
        EdgesInv layout cols (l.foldl (edgeStep layout cols) es) := by
    intro l
    induction l with
    | nil => exact fun _ es h => h
    | cons n t ih =>
      intro hmem es h
      rw [List.foldl_cons]
      refine ih (fun m hm => hmem m (List.mem_cons_of_mem _ hm)) _ ?_
      rw [edgeStep]
      exact edgeFold_inv layout cols n (hmem n (List.mem_cons_self ..)) _ es h
  exact hgen (nodesOf layout cols) (fun n hn => hn) [] hbase

theorem edgeFold_isSome_mono (layout : List (List Char)) (cols : Nat) (u : NodeInfo)
    (k : Nat × Nat) :
    ∀ (l : List (Nat × Nat)) (es : List ((Nat × Nat) × Weight)),
      (lookupA es k).isSome = true →
      (lookupA (l.foldl (fun es rc =>
        match cellNode layout cols rc.1 rc.2 with
        | some v => setEdge es u.id v.id (weightRule u.ntype v.ntype)
        | none => es) es) k).isSome = true := by
  intro l
  induction l with
  | nil => exact fun es h => h
  | cons rc t ih =>
    intro es h
    rw [List.foldl_cons]
    rcases hcn : cellNode layout cols rc.1 rc.2 with _ | v
    · simp only [hcn]
      exact ih es h
    · simp only [hcn]
      refine ih _ ?_
      rw [lookupA_setEdge]
      by_cases hk : ekey u.id v.id = k
      · rw [if_pos hk]
        rfl
      · rw [if_neg hk]
        exact h

theorem edgeStep_isSome_mono (layout : List (List Char)) (cols : Nat) (u : NodeInfo)
    (k : Nat × Nat) (es : List ((Nat × Nat) × Weight))
    (h : (lookupA es k).isSome = true) :
    (lookupA (edgeStep layout cols es u) k).isSome = true := by
  rw [edgeStep]
  exact edgeFold_isSome_mono layout cols u k _ es h

theorem edgeFold_writes (layout : List (List Char)) (cols : Nat) (u v : NodeInfo)
    (rc0 : Nat × Nat) (hv : cellNode layout cols rc0.1 rc0.2 = some v) :
    ∀ (l : List (Nat × Nat)), rc0 ∈ l → ∀ es,
      (lookupA (l.foldl (fun es rc =>
        match cellNode layout cols rc.1 rc.2 with
        | some v => setEdge es u.id v.id (weightRule u.ntype v.ntype)
        | none => es) es) (ekey u.id v.id)).isSome = true := by
  intro l
  induction l with
  | nil => intro h; simp at h
  | cons rc t ih =>
    intro hmem es
    rw [List.foldl_cons]
    rcases List.mem_cons.mp hmem with heq | hm
    · subst heq
      rw [show rc0.1 = rc0.1 from rfl] at hv
      simp only [hv]
      refine edgeFold_isSome_mono layout cols u _ t _ ?_
      rw [lookupA_setEdge, if_pos rfl]
      rfl
    · rcases hcn : cellNode layout cols rc.1 rc.2 with _ | v'
      · simp only [hcn]
        exact ih hm es
      · simp only [hcn]
        exact ih hm _

theorem nbrs_mem_of_adjacent {u v : NodeInfo}
    (hadj : (u.r = v.r ∧ (u.c + 1 = v.c ∨ v.c + 1 = u.c)) ∨
      (u.c = v.c ∧ (u.r + 1 = v.r ∨ v.r + 1 = u.r))) :
    (v.r, v.c) ∈ nbrs u.r u.c := by
  rw [nbrs]
  rcases hadj with ⟨h1, h2 | h2⟩ | ⟨h1, h2 | h2⟩
  · refine List.mem_append.mpr (Or.inr ?_)
    simp [← h1, ← h2]
  · refine List.mem_append.mpr (Or.inl (List.mem_append.mpr (Or.inr ?_)))
    rw [if_neg (show ¬u.c = 0 by omega)]
    have h3 : v.c = u.c - 1 := by omega
    simp [← h1, h3]
  · refine List.mem_append.mpr (Or.inl (List.mem_append.mpr (Or.inl
      (List.mem_append.mpr (Or.inr ?_)))))
    simp [← h1, ← h2]
  · refine List.mem_append.mpr (Or.inl (List.mem_append.mpr (Or.inl
      (List.mem_append.mpr (Or.inl ?_)))))
    rw [if_neg (show ¬u.r = 0 by omega)]
    have h3 : v.r = u.r - 1 := by omega
    simp [← h1, h3]

theorem edgesOf_isSome_of_adjacent {layout : List (List Char)} {cols : Nat}
    {u v : NodeInfo} (hu : u ∈ nodesOf layout cols) (hv : v ∈ nodesOf layout cols)
    (hadj : (u.r = v.r ∧ (u.c + 1 = v.c ∨ v.c + 1 = u.c)) ∨
      (u.c = v.c ∧ (u.r + 1 = v.r ∨ v.r + 1 = u.r))) :
    (lookupA (edgesOf layout cols (nodesOf layout cols)) (ekey u.id v.id)).isSome = true := by
  obtain ⟨l1, l2, hsplit⟩ := List.append_of_mem hu
  rw [edgesOf, hsplit, List.foldl_append, List.foldl_cons]
  have hwrite : (lookupA (edgeStep layout cols (l1.foldl (edgeStep layout cols) []) u)
      (ekey u.id v.id)).isSome = true := by
    rw [edgeStep]
    exact edgeFold_writes layout cols u v (v.r, v.c) (cellNode_of_mem hv)
      (nbrs u.r u.c) (nbrs_mem_of_adjacent hadj) _
  have hmono : ∀ (l : List NodeInfo) es, (lookupA es (ekey u.id v.id)).isSome = true →
      (lookupA (l.foldl (edgeStep layout cols) es) (ekey u.id v.id)).isSome = true := by
    intro l
    induction l with
    | nil => exact fun es h => h
    | cons n t ih =>
      intro es h
      rw [List.foldl_cons]
      exact ih _ (edgeStep_isSome_mono layout cols n _ es h)
  exact hmono l2 _ hwrite

theorem countKey_zero_of_not_mem {es : List ((Nat × Nat) × Weight)} {u v : Nat}
    (h : ekey u v ∉ es.map (fun kw => kw.1)) : countKey es u v = 0 := by
  induction es with
  | nil => rfl
  | cons p t ih =>
    simp only [List.map_cons, List.mem_cons] at h
    push_neg at h
    rw [countKey, List.filter_cons, if_neg (by simpa using fun he => h.1 he.symm)]
    exact ih h.2

theorem countKey_eq_one {es : List ((Nat × Nat) × Weight)} {u v : Nat}
    (hnd : (es.map (fun kw => kw.1)).Nodup)
    (h : (lookupA es (ekey u v)).isSome = true) : countKey es u v = 1 := by
  induction es with
  | nil => simp [lookupA] at h
  | cons p t ih =>
    obtain ⟨k0, w0⟩ := p
    simp only [List.map_cons, List.nodup_cons] at hnd
    by_cases hk : k0 = ekey u v
    · subst hk
      rw [countKey, List.filter_cons, if_pos (by simp)]
      have hz : countKey t u v = 0 := countKey_zero_of_not_mem hnd.1
      rw [countKey] at hz
      simp [hz]
    · rw [countKey, List.filter_cons, if_neg (by simpa using hk)]
      rw [lookupA, if_neg hk] at h
      exact ih hnd.2 h

/-- C6: in a built graph, every pair of 4-directionally adjacent materialized
nodes carries exactly one undirected edge, and its weight follows the claimed
rule — 1 for roadway-roadway (entrance cells are road-kind nodes, so the
Entrance counts as Roadway), 50 when exactly one endpoint is a slot, 100 when
both are. -/
theorem C6_adjacent_nodes_have_one_edge_with_rule_weight
    (layout : List (List Char)) (s : Sys) (u v : NodeInfo)
    (hb : build layout = Except.ok s) (hu : u ∈ s.nodes) (hv : v ∈ s.nodes)
    (hadj : (u.r = v.r ∧ (u.c + 1 = v.c ∨ v.c + 1 = u.c)) ∨
      (u.c = v.c ∧ (u.r + 1 = v.r ∨ v.r + 1 = u.r))) :
    lookupEdge s.edges u.id v.id = some (claimWeight u.ntype v.ntype) ∧
    countKey s.edges u.id v.id = 1 := by
  have hs := build_ok_elim hb
  subst hs
  have hu' : u ∈ nodesOf layout (layout.headD []).length := hu
  have hv' : v ∈ nodesOf layout (layout.headD []).length := hv
  have hinv := edgesOf_inv layout (layout.headD []).length
  have hsome := edgesOf_isSome_of_adjacent hu' hv' hadj
  have hlook : lookupA (edgesOf layout (layout.headD []).length
      (nodesOf layout (layout.headD []).length)) (ekey u.id v.id) =
      some (wKey layout (layout.headD []).length (ekey u.id v.id)) := by
    rcases hinv.1 (ekey u.id v.id) with h1 | h1
    · rw [h1] at hsome
      exact absurd hsome (by simp)
    · exact h1
  constructor
  · show lookupA (edgesOf layout (layout.headD []).length
      (nodesOf layout (layout.headD []).length)) (ekey u.id v.id) = _
    rw [hlook, wKey_write hu' hv', weightRule_eq_claimWeight]
  · exact countKey_eq_one hinv.2 hsome

/-- Witness for C6: the entrance-road edge of `["ER"]` exists once with
weight 1. -/
theorem C6_witness :
    lookupEdge (buildOk c6wLayout).edges c6u.id c6v.id =
      some (claimWeight c6u.ntype c6v.ntype) ∧
    countKey (buildOk c6wLayout).edges c6u.id c6v.id = 1 :=
  C6_adjacent_nodes_have_one_edge_with_rule_weight c6wLayout (buildOk c6wLayout) c6u c6v
    (by decide) (by decide) (by decide) (Or.inl ⟨rfl, Or.inl rfl⟩)

theorem mem_eIds {layout : List (List Char)} {cols e : Nat} :
    e ∈ eIds layout cols ↔ ∃ r c, r < layout.length ∧ c < cols ∧
      charAt layout r c = 'E' ∧ e = r * cols + c := by
  constructor
  · intro h
    obtain ⟨rc, hrc, hf⟩ := List.mem_filterMap.mp h
    obtain ⟨hr, hc⟩ := mem_cellList.mp hrc
    by_cases hch : charAt layout rc.1 rc.2 = 'E'
    · rw [if_pos hch] at hf
      exact ⟨rc.1, rc.2, hr, hc, hch, (Option.some.inj hf).symm⟩
    · rw [if_neg hch] at hf
      exact absurd hf (by simp)
  · rintro ⟨r, c, hr, hc, hch, he⟩
    refine List.mem_filterMap.mpr ⟨(r, c), mem_cellList.mpr ⟨hr, hc⟩, ?_⟩
    rw [if_pos hch, he]

theorem eIds_pairwise (layout : List (List Char)) (cols : Nat) :
    List.Pairwise (· < ·) (eIds layout cols) := by
  rw [eIds, List.pairwise_filterMap]
  refine List.Pairwise.imp ?_ (cellList_pairwise layout.length cols)
  intro a b hab x hx y hy
  by_cases ha : charAt layout a.1 a.2 = 'E'
  case neg =>
    rw [if_neg ha] at hx
    exact (Option.not_mem_none x hx).elim
  by_cases hb : charAt layout b.1 b.2 = 'E'
  case neg =>
    rw [if_neg hb] at hy
    exact (Option.not_mem_none y hy).elim
  rw [if_pos ha] at hx
  rw [if_pos hb] at hy
  have hx2 : a.1 * cols + a.2 = x := Option.some.inj hx
  have hy2 : b.1 * cols + b.2 = y := Option.some.inj hy
  rw [← hx2, ← hy2]
  exact hab

theorem getLast_eq_of_max {l : List Nat} (hp : List.Pairwise (· < ·) l)
    {e : Nat} (he : e ∈ l) (hmax : ∀ x ∈ l, x ≤ e) : l.getLast? = some e := by
  induction l with
  | nil => cases he
  | cons a t ih =>
    cases t with
    | nil =>
      rcases List.mem_singleton.mp he with rfl
      rfl
    | cons b t2 =>
      rw [List.getLast?_cons_cons]
      rcases List.mem_cons.mp he with rfl | he2
      · have hab : e < b := (List.pairwise_cons.mp hp).1 b (List.mem_cons_self b t2)
        have hba : b ≤ e := hmax b (List.mem_cons_of_mem e (List.mem_cons_self b t2))
        omega
      · exact ih (List.pairwise_cons.mp hp).2 he2
          (fun x hx => hmax x (List.mem_cons_of_mem a hx))

theorem lastEntrance_eq_eIds (layout : List (List Char)) (cols : Nat) :
    lastEntrance layout cols = (eIds layout cols).getLast? := rfl

theorem entryOf_of_lastEntrance (layout : List (List Char)) (cols : Nat)
    (nodes : List NodeInfo) (e : Nat) (h : lastEntrance layout cols = some e) :
    entryOf layout cols nodes = e := by
  unfold entryOf
  rw [h]

/-- C10: on a layout that builds and holds more than one `'E'` cell, the
entrance node stored by `_build_graph` (every `'E'` overwrites
`self.entry_node_id`, so the last row-major assignment wins) is the `'E'` cell
of maximal id — equivalently the last one in row-major scan order, since node
ids `r * cols + c` are strictly increasing along that scan — and every `'E'`
cell, selected or not, is materialized as a Roadway-kind node at its
coordinates. -/
theorem C10_last_entrance_wins_and_e_cells_are_road
    (layout : List (List Char)) (s0 : Sys) (cols e r c : Nat)
    (hb : build layout = Except.ok s0)
    (hcols : cols = (layout.headD []).length)
    (hmulti : 2 ≤ (eIds layout cols).length)
    (hr : r < layout.length) (hc : c < cols)
    (hch : charAt layout r c = 'E') (he : e = r * cols + c)
    (hmax : ∀ r2 c2, r2 < layout.length → c2 < cols →
      charAt layout r2 c2 = 'E' → r2 * cols + c2 ≤ e) :
    s0.entry = e ∧
    ∀ r2 c2, r2 < layout.length → c2 < cols → charAt layout r2 c2 = 'E' →
      (⟨r2 * cols + c2, NType.road, r2, c2⟩ : NodeInfo) ∈ s0.nodes := by
  subst hcols
  subst he
  have hs := build_ok_elim hb
  subst hs
  have hmem : r * (layout.headD []).length + c ∈ eIds layout (layout.headD []).length :=
    mem_eIds.mpr ⟨r, c, hr, hc, hch, rfl⟩
  have hall : ∀ x ∈ eIds layout (layout.headD []).length,
      x ≤ r * (layout.headD []).length + c := by
    intro x hx
    obtain ⟨r2, c2, hr2, hc2, hch2, hx2⟩ := mem_eIds.mp hx
    rw [hx2]
    exact hmax r2 c2 hr2 hc2 hch2
  have hle : lastEntrance layout (layout.headD []).length =
      some (r * (layout.headD []).length + c) := by
    rw [lastEntrance_eq_eIds]
    exact getLast_eq_of_max (eIds_pairwise layout _) hmem hall
  constructor
  · show entryOf layout (layout.headD []).length
      (nodesOf layout (layout.headD []).length) = _
    exact entryOf_of_lastEntrance _ _ _ _ hle
  · intro r2 c2 hr2 hc2 hch2
    show (⟨r2 * (layout.headD []).length + c2, NType.road, r2, c2⟩ : NodeInfo) ∈
      nodesOf layout (layout.headD []).length
    refine mem_nodesOf.mpr ⟨r2, c2, hr2, hc2, ?_, ?_⟩
    · rw [hch2]
      decide
    · rw [hch2]
      have ht : typeOf 'E' = NType.road := by decide
      rw [ht]

/-- Witness for C10: `[['E', 'E']]` has two entrance cells; the entry is node
1 (the second `'E'`), and the non-selected `'E'` at `(0, 0)` is a road-kind
node. -/
theorem C10_witness :
    (builtSys c10Layout).entry = 1 ∧
    (⟨0, NType.road, 0, 0⟩ : NodeInfo) ∈ (builtSys c10Layout).nodes := by
  have h := C10_last_entrance_wins_and_e_cells_are_road c10Layout (builtSys c10Layout)
    2 1 0 1 (by decide) (by decide) (by decide) (by decide) (by decide) (by decide)
    (by decide)
    (by
      intro r2 c2 hr2 hc2 _
      have hl : c10Layout.length = 1 := rfl
      rw [hl] at hr2
      omega)
  exact ⟨h.1, h.2 0 0 (by decide) (by decide) (by decide)⟩

end Parking
